import Mathlib

/-!
# SyncWave Pro — verification of the room presence / fanout service

Shallow embedding of the WebSocket room service (`setupWebSocket` and its
handlers: `handleJoinRoom`, `handleLeaveRoom`, `handleChatMessage`,
`handleMediaControl`, `handleScreenShare`, `handleDisconnection`,
`broadcastToRoom`, `sendMessage`, `sendError`).

Modelling decisions, all read off the source:
* The two module-level JavaScript `Map`s (`connections : userId → ws` and
  `roomConnections : roomId → (userId → RoomConnection)`) are embedded as
  insertion-ordered association lists with JS `Map` semantics: `set`
  replaces the first occurrence in place or appends, `get` reads the first
  occurrence, `delete` removes the first occurrence, `forEach` iterates in
  list order.
* A live socket (`ExtendedWebSocket`) is a record with the mutable fields
  the handlers touch: `userId?`, `roomId?`, and its transport `readyState`
  collapsed to a boolean `isOpen` (`readyState === WebSocket.OPEN`).
  Sockets are identified by a `Nat` connection id; the server state carries
  the socket table so that `ws.userId = ...` style mutation becomes an
  update of that table.
* `app.jwt.verify` is an external collaborator: a handler invocation takes
  the verification outcome as an `Option (userId × username)` argument
  (`none` = the verify call threw).
* `new Date()` is modelled by a `Nat` tick passed to each handler
  invocation; the several `new Date()` calls inside one handler all yield
  that tick.  `generateMessageId` is likewise a parameter.
* `logger` calls have no observable effect on state or on the wire and are
  not modelled.
* A handler returns the new server state together with the list of frames
  written to sockets, as `(connId, Msg)` pairs; `ws.send` only fires when
  the target socket is open, exactly as guarded in `sendMessage` and
  `broadcastToRoom`.
-/

namespace SyncWave

/-! ## Association lists with JavaScript `Map` semantics -/

variable {κ α : Type} [DecidableEq κ]

/-- `Map.prototype.set`: replace the first binding of `k` in place, else
append a new binding at the end (JS `Map`s are insertion ordered). -/
def mapSet : List (κ × α) → κ → α → List (κ × α)
  | [], k, v => [(k, v)]
  | (k', v') :: rest, k, v =>
    if k' = k then (k, v) :: rest else (k', v') :: mapSet rest k v

/-- `Map.prototype.get`: first binding of `k`, if any. -/
def mapGet : List (κ × α) → κ → Option α
  | [], _ => none
  | (k', v') :: rest, k => if k' = k then some v' else mapGet rest k

/-- `Map.prototype.delete`: drop the first binding of `k`. -/
def mapDel : List (κ × α) → κ → List (κ × α)
  | [], _ => []
  | (k', v') :: rest, k => if k' = k then rest else (k', v') :: mapDel rest k

/-- The keys of an association list, in order. -/
def keysOf (m : List (κ × α)) : List κ := m.map Prod.fst

/-- Well-formedness of a map built by `mapSet`/`mapDel`: no duplicate keys. -/
def NodupKeys (m : List (κ × α)) : Prop := (keysOf m).Nodup

/-! ## Data model -/

/-- `ExtendedWebSocket`: the per-socket mutable fields used by the
handlers.  `isOpen` stands for `readyState === WebSocket.OPEN`. -/
structure Sock where
  userId : Option String
  roomId : Option String
  isOpen : Bool
deriving DecidableEq, Repr

/-- `RoomConnection`: one user's presence entry inside a room. -/
structure Entry where
  userId : String
  username : String
  connId : Nat
  joinedAt : Nat
deriving DecidableEq, Repr

/-- The server's module-level state: the socket table plus the two global
maps `connections` (userId → socket) and `roomConnections`
(roomId → userId → RoomConnection). -/
structure ServerState where
  socks : List (Nat × Sock)
  connections : List (String × Nat)
  rooms : List (String × List (String × Entry))
deriving DecidableEq, Repr

/-- The empty initial state (fresh module load). -/
def initState : ServerState := ⟨[], [], []⟩

/-- Outbound envelopes the handlers construct (`WSMessageType` variants
that this service writes). -/
inductive Msg where
  | userJoined (roomId userId username : String) (timestamp : Nat)
  | userLeft (roomId userId username : String) (timestamp : Nat)
  | roomState (roomId : String) (users : List (String × String × Nat))
      (timestamp : Nat)
  | chat (roomId text senderId id : String) (timestamp : Nat)
  | mediaControl (roomId action senderId : String) (timestamp : Nat)
  | screenShare (start : Bool) (roomId senderId : String) (timestamp : Nat)
  | error (code : String) (timestamp : Nat)
deriving DecidableEq, Repr

/-- A frame written to one socket: target connection id and envelope. -/
abbrev Send := Nat × Msg

/-- Whether the socket behind connection id `c` is currently open. -/
def sockOpen (s : ServerState) (c : Nat) : Bool :=
  match mapGet s.socks c with
  | some k => k.isOpen
  | none => false

/-! ## The handlers, translated from the source -/

/-- `sendMessage(ws, message)`: write only when the transport is open. -/
def sendMessage (s : ServerState) (c : Nat) (m : Msg) : List Send :=
  if sockOpen s c then [(c, m)] else []

/-- `sendError(ws, code, message)`: wrap the code in an `ERROR` envelope
and send it through `sendMessage`. -/
def sendError (s : ServerState) (c : Nat) (code : String) (now : Nat) :
    List Send :=
  sendMessage s c (.error code now)

/-- `broadcastToRoom(roomId, message, excludeUserId?)`: iterate the room's
member map in insertion order, skipping the excluded userId and members
whose socket is not open.  The source mutates no state here. -/
def broadcastToRoom (s : ServerState) (roomId : String) (m : Msg)
    (excludeUserId : Option String) : List Send :=
  match mapGet s.rooms roomId with
  | none => []
  | some roomUsers =>
    roomUsers.flatMap fun p =>
      if excludeUserId = some p.1 then [] else sendMessage s p.2.connId m

/-- `handleJoinRoom(ws, message, app)`.  `cred` is the outcome of
`app.jwt.verify(message.token)` (`none` = the verify threw, caught by the
surrounding `try`, which then only emits `Error{JOIN_ROOM_FAILED}`).  On
success the socket is bound, the registry and the room map are updated,
`UserJoined` is broadcast to the other members, and a `RoomState` snapshot
taken after the insertion is sent privately to the joiner.  The guard for
an unknown connection id cannot fire for sockets created by the accept
path; it exists only to keep the function total. -/
def handleJoinRoom (s : ServerState) (c : Nat)
    (cred : Option (String × String)) (roomId : String) (now : Nat) :
    ServerState × List Send :=
  match mapGet s.socks c with
  | none => (s, [])
  | some sock =>
    match cred with
    | none => (s, sendError s c "JOIN_ROOM_FAILED" now)
    | some (userId, username) =>
      let sock' := { sock with userId := some userId, roomId := some roomId }
      let s1 : ServerState :=
        { s with socks := mapSet s.socks c sock',
                 connections := mapSet s.connections userId c }
      let roomUsers := (mapGet s1.rooms roomId).getD []
      let roomUsers' := mapSet roomUsers userId ⟨userId, username, c, now⟩
      let s2 : ServerState := { s1 with rooms := mapSet s1.rooms roomId roomUsers' }
      let out1 := broadcastToRoom s2 roomId
        (.userJoined roomId userId username now) (some userId)
      let snapshot := roomUsers'.map fun p => (p.2.userId, p.2.username, p.2.joinedAt)
      let out2 := sendMessage s2 c (.roomState roomId snapshot now)
      (s2, out1 ++ out2)

/-- `handleLeaveRoom(ws, message)`.  The envelope's `roomId` field is never
read (the source only logs it): the handler operates on `ws.roomId`.  When
the bound room holds an entry for `ws.userId` it is removed, `UserLeft` is
broadcast to the rest, and an emptied room is deleted; in every bound case
the registry entry is deleted and the socket's bindings are cleared. -/
def handleLeaveRoom (s : ServerState) (c : Nat) (envRoomId : String)
    (now : Nat) : ServerState × List Send :=
  match mapGet s.socks c with
  | none => (s, [])
  | some sock =>
    match sock.userId, sock.roomId with
    | some userId, some roomId =>
      let (s1, out1) :=
        match mapGet s.rooms roomId with
        | none => (s, ([] : List Send))
        | some roomUsers =>
          match mapGet roomUsers userId with
          | none => (s, [])
          | some userConnection =>
            let roomUsers' := mapDel roomUsers userId
            let sA : ServerState := { s with rooms := mapSet s.rooms roomId roomUsers' }
            let out := broadcastToRoom sA roomId
              (.userLeft roomId userId userConnection.username now) (some userId)
            let sB : ServerState :=
              if roomUsers'.isEmpty then { sA with rooms := mapDel sA.rooms roomId }
              else sA
            (sB, out)
      let s2 : ServerState := { s1 with connections := mapDel s1.connections userId }
      let s3 : ServerState :=
        { s2 with socks := mapSet s2.socks c { sock with userId := none, roomId := none } }
      (s3, out1)
    | _, _ => (s, sendError s c "NOT_IN_ROOM" now)

/-- `handleDisconnection(ws)`: same room cleanup as leaving, but the
socket's `userId`/`roomId` fields are *not* cleared, and nothing is sent
to the disconnected socket itself. -/
def handleDisconnection (s : ServerState) (c : Nat) (now : Nat) :
    ServerState × List Send :=
  match mapGet s.socks c with
  | none => (s, [])
  | some sock =>
    match sock.userId with
    | none => (s, [])
    | some userId =>
      let (s1, out1) :=
        match sock.roomId with
        | none => (s, ([] : List Send))
        | some roomId =>
          match mapGet s.rooms roomId with
          | none => (s, [])
          | some roomUsers =>
            match mapGet roomUsers userId with
            | none => (s, [])
            | some userConnection =>
              let roomUsers' := mapDel roomUsers userId
              let sA : ServerState := { s with rooms := mapSet s.rooms roomId roomUsers' }
              let out := broadcastToRoom sA roomId
                (.userLeft roomId userId userConnection.username now) (some userId)
              let sB : ServerState :=
                if roomUsers'.isEmpty then { sA with rooms := mapDel sA.rooms roomId }
                else sA
              (sB, out)
      ({ s1 with connections := mapDel s1.connections userId }, out1)

/-- Client `ChatMessage` envelope, with the client-supplied fields the
handler may override. -/
structure ChatEnvelope where
  roomId : String
  text : String
  senderId : String
  id : String
  timestamp : Nat
deriving DecidableEq, Repr

/-- `handleChatMessage(ws, message)`: requires a bound socket; stamps
`id`, `timestamp`, `senderId` server-side over the client envelope and
broadcasts to the bound room with no exclusion (the sender included). -/
def handleChatMessage (s : ServerState) (c : Nat) (env : ChatEnvelope)
    (msgId : String) (now : Nat) : ServerState × List Send :=
  match mapGet s.socks c with
  | none => (s, [])
  | some sock =>
    match sock.userId, sock.roomId with
    | some userId, some roomId =>
      let chatMessage := Msg.chat env.roomId env.text userId msgId now
      (s, broadcastToRoom s roomId chatMessage none)
    | _, _ => (s, sendError s c "NOT_IN_ROOM" now)

/-- Client `MediaControlMessage` envelope. -/
structure MediaEnvelope where
  roomId : String
  action : String
  senderId : String
  timestamp : Nat
deriving DecidableEq, Repr

/-- `handleMediaControl(ws, message)`: stamps `senderId`/`timestamp`
server-side and broadcasts to the bound room excluding the sender. -/
def handleMediaControl (s : ServerState) (c : Nat) (env : MediaEnvelope)
    (now : Nat) : ServerState × List Send :=
  match mapGet s.socks c with
  | none => (s, [])
  | some sock =>
    match sock.userId, sock.roomId with
    | some userId, some roomId =>
      let controlMessage := Msg.mediaControl env.roomId env.action userId now
      (s, broadcastToRoom s roomId controlMessage (some userId))
    | _, _ => (s, sendError s c "NOT_IN_ROOM" now)

/-- Client `ScreenShareMessage` envelope (`start` distinguishes
`SCREEN_SHARE_START` from `SCREEN_SHARE_STOP`). -/
structure ShareEnvelope where
  start : Bool
  roomId : String
  senderId : String
  timestamp : Nat
deriving DecidableEq, Repr

/-- `handleScreenShare(ws, message)`: stamps `senderId`/`timestamp`
server-side and broadcasts to the bound room excluding the sender. -/
def handleScreenShare (s : ServerState) (c : Nat) (env : ShareEnvelope)
    (now : Nat) : ServerState × List Send :=
  match mapGet s.socks c with
  | none => (s, [])
  | some sock =>
    match sock.userId, sock.roomId with
    | some userId, some roomId =>
      let shareMessage := Msg.screenShare env.start env.roomId userId now
      (s, broadcastToRoom s roomId shareMessage (some userId))
    | _, _ => (s, sendError s c "NOT_IN_ROOM" now)

/-! ## Operation traces over the membership state

The membership claims quantify over sequences of join / leave / disconnect
operations.  `Op.connect` models the transport accept (`wss.on
('connection')`: a fresh socket with `isAlive` housekeeping and no
bindings); `Op.join` a `JOIN_ROOM` envelope whose credential verifies to
the given identity; `Op.joinFail` one whose credential fails; `Op.leave` a
`LEAVE_ROOM` envelope; `Op.disconnect` the single disconnect routine, as
invoked from transport close, transport error, and liveness eviction
alike.  Timestamps are irrelevant to membership, so the steps run the
handlers at tick `0`. -/

inductive Op where
  | connect (c : Nat)
  | join (c : Nat) (userId username roomId : String)
  | joinFail (c : Nat) (roomId : String)
  | leave (c : Nat) (envRoomId : String)
  | disconnect (c : Nat)
deriving DecidableEq, Repr

/-- One operation applied to the server state (outputs dropped: the
membership claims are about state). -/
def stepOp (s : ServerState) : Op → ServerState
  | .connect c => { s with socks := mapSet s.socks c ⟨none, none, true⟩ }
  | .join c u un r => (handleJoinRoom s c (some (u, un)) r 0).1
  | .joinFail c r => (handleJoinRoom s c none r 0).1
  | .leave c rf => (handleLeaveRoom s c rf 0).1
  | .disconnect c => (handleDisconnection s c 0).1

/-- Run a whole trace. -/
def runOps (s : ServerState) : List Op → ServerState
  | [] => s
  | op :: ops => runOps (stepOp s op) ops

/-- The member set the server records for a room: the userIds of the
room's membership map (empty when the room key is absent). -/
def codeMembers (s : ServerState) (roomId : String) : List String :=
  keysOf ((mapGet s.rooms roomId).getD [])

/-- `true` when no room key of the table maps to an empty member map. -/
def noEmptyRooms (s : ServerState) : Bool :=
  s.rooms.all fun p => !p.2.isEmpty

/-- A socket that exists and has neither identity nor room bound. -/
def unboundSock (s : ServerState) (c : Nat) : Bool :=
  match mapGet s.socks c with
  | some k => k.userId.isNone && k.roomId.isNone
  | none => false

/-- `true` when `u` holds no membership entry in any room. -/
def userInNoRoom (s : ServerState) (u : String) : Bool :=
  s.rooms.all fun p => (mapGet p.2 u).isNone

/-- Admissible traces, checked against the evolving code state.  `dead`
collects connection ids whose disconnect routine already ran: a closed
transport emits no further operations, so an admissible trace never
operates on a dead connection and never reuses its id.  A join must come
from an existing socket with no current binding, for a userId that is not
presently a member of any room — the disciplines under which the spec's
one-room-per-user reading is meaningful. -/
def admissible (s : ServerState) (dead : List Nat) : List Op → Bool
  | [] => true
  | op :: ops =>
    match op with
    | .connect c =>
      (mapGet s.socks c).isNone && decide (c ∉ dead) &&
        admissible (stepOp s op) dead ops
    | .join c u _ _ =>
      decide (c ∉ dead) && unboundSock s c && userInNoRoom s u &&
        admissible (stepOp s op) dead ops
    | .joinFail c _ =>
      decide (c ∉ dead) && admissible (stepOp s op) dead ops
    | .leave c _ =>
      decide (c ∉ dead) && admissible (stepOp s op) dead ops
    | .disconnect c =>
      decide (c ∉ dead) && admissible (stepOp s op) (c :: dead) ops

/-! ## The specification-side membership model

Written from the spec's words, for the refinement comparison of C1: "the
room's member set equals exactly the set of identities that have joined
and not yet left or been disconnected".  An active presence is a
(connection, user, room) triple created by a successful join; a leave or a
disconnect of that connection ends it. -/

/-- One active presence in the specification model. -/
structure SpecEntry where
  connId : Nat
  userId : String
  roomId : String
deriving DecidableEq, Repr

/-- `Modelled from the spec:` the abstract membership semantics of §4.2 /
§8 ("joined and not yet left or been disconnected") — a successful join
records a presence, leave and disconnect erase the connection's presence,
failed joins and connects record nothing. -/
def specStep (ss : List SpecEntry) : Op → List SpecEntry
  | .connect _ => ss
  | .join c u _ r => ss ++ [⟨c, u, r⟩]
  | .joinFail _ _ => ss
  | .leave c _ => ss.filter fun e => e.connId ≠ c
  | .disconnect c => ss.filter fun e => e.connId ≠ c

/-- Run the specification model over a trace. -/
def specRun (ss : List SpecEntry) : List Op → List SpecEntry
  | [] => ss
  | op :: ops => specRun (specStep ss op) ops

/-- The member set of a room in the specification model. -/
def specMembers (ss : List SpecEntry) (roomId : String) : List String :=
  (ss.filter fun e => e.roomId = roomId).map fun e => e.userId

/-! ## Statement-side observers and the C7 comparison -/

/-- The envelopes a given connection id receives from an output batch, in
order. -/
def sendsTo (out : List Send) (c : Nat) : List Msg :=
  out.filterMap fun q => if q.1 = c then some q.2 else none

/-- The `senderId` field of an outbound envelope, when it has one. -/
def senderOf : Msg → Option String
  | .chat _ _ senderId _ _ => some senderId
  | .mediaControl _ _ senderId _ => some senderId
  | .screenShare _ _ senderId _ => some senderId
  | .userJoined _ userId _ _ => some userId
  | .userLeft _ userId _ _ => some userId
  | _ => none

/-- The server timestamp of an outbound envelope. -/
def stampOf : Msg → Nat
  | .userJoined _ _ _ t => t
  | .userLeft _ _ _ t => t
  | .roomState _ _ t => t
  | .chat _ _ _ _ t => t
  | .mediaControl _ _ _ t => t
  | .screenShare _ _ _ t => t
  | .error _ t => t

/-- `broadcastToRoom` as a state transformer.  The source function mutates
no server state, so the state component is the input state unchanged; the
wrapper makes that observable for comparison against the spec's required
behaviour. -/
def broadcastToRoomStep (s : ServerState) (roomId : String) (m : Msg)
    (excl : Option String) : ServerState × List Send :=
  (s, broadcastToRoom s roomId m excl)

/-- `Modelled from the spec:` what §4.5/§7(d) require of a broadcast where
some deliveries fail — each member whose transport is not open is, besides
being skipped for delivery, routed through the standard disconnect cleanup
(§4.4), i.e. `handleDisconnection`.  The source has no such routing; this
definition exists only to state that divergence. -/
def specBroadcastWithCleanup (s : ServerState) (roomId : String) (m : Msg)
    (excl : Option String) (now : Nat) : ServerState × List Send :=
  let out := broadcastToRoom s roomId m excl
  let failed := ((mapGet s.rooms roomId).getD []).filter fun p =>
    decide (excl ≠ some p.1) && !(sockOpen s p.2.connId)
  (failed.foldl (fun st p => (handleDisconnection st p.2.connId now).1) s, out)

/-- Concrete three-member room for the C7 scenario: members `a`, `b`, `c`
on connections 10, 11, 12; `b`'s transport is not open. -/
def c7State : ServerState :=
  { socks := [(10, ⟨some "a", some "r", true⟩),
              (11, ⟨some "b", some "r", false⟩),
              (12, ⟨some "c", some "r", true⟩)],
    connections := [("a", 10), ("b", 11), ("c", 12)],
    rooms := [("r", [("a", ⟨"a", "a", 10, 0⟩),
                     ("b", ⟨"b", "b", 11, 0⟩),
                     ("c", ⟨"c", "c", 12, 0⟩)])] }

/-- Well-formedness of a room table: no duplicate room keys, and every
room's member map has no duplicate userId keys and is non-empty. -/
def WfRoomsTable (rt : List (String × List (String × Entry))) : Prop :=
  NodupKeys rt ∧ ∀ r m, mapGet rt r = some m → NodupKeys m ∧ m ≠ []

/-- Well-formedness of the server's room table. -/
def wfRooms (s : ServerState) : Prop := WfRoomsTable s.rooms

/-- The simulation invariant between the code state and the
specification-side presence list, relative to the set `dead` of
connection ids whose disconnect routine has run:
membership agreement, per-user and per-connection uniqueness of
presences, agreement between presences and socket bindings of live
connections, and room-table well-formedness. -/
def Inv (s : ServerState) (ss : List SpecEntry) (dead : List Nat) : Prop :=
  (∀ r u, u ∈ codeMembers s r ↔ ∃ c, SpecEntry.mk c u r ∈ ss) ∧
  (∀ e ∈ ss, ∀ e' ∈ ss, e.userId = e'.userId → e = e') ∧
  (∀ e ∈ ss, ∀ e' ∈ ss, e.connId = e'.connId → e = e') ∧
  (∀ e ∈ ss, ∃ k, mapGet s.socks e.connId = some k ∧
    k.userId = some e.userId ∧ k.roomId = some e.roomId ∧ e.connId ∉ dead) ∧
  (∀ c k u r, mapGet s.socks c = some k → k.userId = some u →
    k.roomId = some r → c ∉ dead → SpecEntry.mk c u r ∈ ss) ∧
  wfRooms s

/-! ## Lemmas about the map operations -/

theorem mapGet_set_self (m : List (κ × α)) (k : κ) (v : α) :
    mapGet (mapSet m k v) k = some v := by
  induction m with
  | nil => simp [mapSet, mapGet]
  | cons p rest ih =>
    obtain ⟨k', v'⟩ := p
    by_cases h : k' = k <;> simp [mapSet, mapGet, h, ih]

theorem nodupKeys_cons {a : κ} {b : α} {rest : List (κ × α)} :
    NodupKeys ((a, b) :: rest) ↔ a ∉ keysOf rest ∧ NodupKeys rest := by
  unfold NodupKeys keysOf
  rw [List.map_cons, List.nodup_cons]

theorem mem_keysOf {m : List (κ × α)} {p : κ × α} (h : p ∈ m) :
    p.1 ∈ keysOf m :=
  List.mem_map.mpr ⟨p, h, rfl⟩

theorem mapGet_set_ne (m : List (κ × α)) {k k' : κ} (v : α) (h : k' ≠ k) :
    mapGet (mapSet m k v) k' = mapGet m k' := by
  induction m with
  | nil =>
    simp only [mapSet, mapGet, if_neg (Ne.symm h)]
  | cons p rest ih =>
    obtain ⟨a, b⟩ := p
    by_cases ha : a = k
    · subst ha
      simp only [mapSet, if_pos rfl, mapGet, if_neg (Ne.symm h)]
    · simp only [mapSet, if_neg ha, mapGet]
      by_cases hb : a = k' <;> simp [hb, ih]

theorem mapGet_del_ne (m : List (κ × α)) {k k' : κ} (h : k' ≠ k) :
    mapGet (mapDel m k) k' = mapGet m k' := by
  induction m with
  | nil => simp [mapDel]
  | cons p rest ih =>
    obtain ⟨a, b⟩ := p
    by_cases ha : a = k
    · subst ha
      simp [mapDel, mapGet, Ne.symm h]
    · simp only [mapDel, if_neg ha, mapGet]
      by_cases hb : a = k' <;> simp [hb, ih]

theorem mapGet_eq_none_iff (m : List (κ × α)) (k : κ) :
    mapGet m k = none ↔ k ∉ keysOf m := by
  induction m with
  | nil => simp [mapGet, keysOf]
  | cons p rest ih =>
    obtain ⟨a, b⟩ := p
    by_cases ha : a = k <;> simp [mapGet, keysOf, ha, eq_comm] at ih ⊢ <;> tauto

theorem mapGet_isSome_iff (m : List (κ × α)) (k : κ) :
    (mapGet m k).isSome = true ↔ k ∈ keysOf m := by
  rw [← Option.ne_none_iff_isSome, Ne, mapGet_eq_none_iff, not_not]

theorem mapGet_del_self (m : List (κ × α)) (k : κ) (h : NodupKeys m) :
    mapGet (mapDel m k) k = none := by
  induction m with
  | nil => simp [mapDel, mapGet]
  | cons p rest ih =>
    obtain ⟨a, b⟩ := p
    rw [nodupKeys_cons] at h
    by_cases ha : a = k
    · subst ha
      rw [mapDel, if_pos rfl, mapGet_eq_none_iff]
      exact h.1
    · simp only [mapDel, if_neg ha, mapGet, if_neg ha]
      exact ih h.2

theorem mem_keys_mapSet (m : List (κ × α)) (k : κ) (v : α) {x : κ}
    (h : x ∈ keysOf (mapSet m k v)) : x = k ∨ x ∈ keysOf m := by
  induction m with
  | nil => simpa [mapSet, keysOf] using h
  | cons p rest ih =>
    obtain ⟨a, b⟩ := p
    by_cases ha : a = k
    · subst ha
      simpa [mapSet, keysOf] using h
    · simp only [mapSet, if_neg ha, keysOf, List.map_cons, List.mem_cons] at h ⊢
      rcases h with h | h
      · tauto
      · rcases ih h with h' | h' <;> tauto

theorem nodupKeys_set (m : List (κ × α)) (k : κ) (v : α) (h : NodupKeys m) :
    NodupKeys (mapSet m k v) := by
  induction m with
  | nil => simp [mapSet, NodupKeys, keysOf]
  | cons p rest ih =>
    obtain ⟨a, b⟩ := p
    rw [nodupKeys_cons] at h
    by_cases ha : a = k
    · subst ha
      rw [mapSet, if_pos rfl, nodupKeys_cons]
      exact h
    · rw [mapSet, if_neg ha, nodupKeys_cons]
      refine ⟨fun hmem => ?_, ih h.2⟩
      rcases mem_keys_mapSet rest k v hmem with h' | h'
      · exact ha h'
      · exact h.1 h'

theorem mapDel_sublist (m : List (κ × α)) (k : κ) : (mapDel m k).Sublist m := by
  induction m with
  | nil => simp [mapDel]
  | cons p rest ih =>
    obtain ⟨a, b⟩ := p
    by_cases ha : a = k
    · simpa [mapDel, ha] using List.sublist_cons_self (k, b) rest
    · simpa [mapDel, ha] using ih.cons₂ (a, b)

theorem nodupKeys_del (m : List (κ × α)) (k : κ) (h : NodupKeys m) :
    NodupKeys (mapDel m k) :=
  List.Nodup.sublist (List.Sublist.map Prod.fst (mapDel_sublist m k)) h

theorem mapGet_mem (m : List (κ × α)) {k : κ} {v : α}
    (h : mapGet m k = some v) : (k, v) ∈ m := by
  induction m with
  | nil => simp [mapGet] at h
  | cons p rest ih =>
    obtain ⟨a, b⟩ := p
    by_cases ha : a = k
    · subst ha
      rw [mapGet, if_pos rfl] at h
      injection h with hbv
      subst hbv
      exact List.mem_cons_self _ _
    · rw [mapGet, if_neg ha] at h
      exact List.mem_cons_of_mem _ (ih h)

theorem mem_mapGet (m : List (κ × α)) {k : κ} {v : α} (hn : NodupKeys m)
    (h : (k, v) ∈ m) : mapGet m k = some v := by
  induction m with
  | nil => simp at h
  | cons p rest ih =>
    obtain ⟨a, b⟩ := p
    rw [nodupKeys_cons] at hn
    rcases List.mem_cons.mp h with h' | h'
    · obtain ⟨rfl, rfl⟩ := Prod.mk.inj h'
      rw [mapGet, if_pos rfl]
    · have hak : a ≠ k := by
        rintro rfl
        exact hn.1 (mem_keysOf h')
      rw [mapGet, if_neg hak]
      exact ih hn.2 h'

theorem mem_mapSet_self (m : List (κ × α)) (k : κ) (v : α) :
    (k, v) ∈ mapSet m k v := by
  induction m with
  | nil => simp [mapSet]
  | cons p rest ih =>
    obtain ⟨a, b⟩ := p
    by_cases ha : a = k <;> simp [mapSet, ha, ih]

theorem mem_mapSet_of_ne (m : List (κ × α)) (k : κ) (v : α) {p : κ × α}
    (hp : p ∈ m) (hne : p.1 ≠ k) : p ∈ mapSet m k v := by
  induction m with
  | nil => simp at hp
  | cons q rest ih =>
    obtain ⟨a, b⟩ := q
    rcases List.mem_cons.mp hp with h' | h'
    · subst h'
      have ha : a ≠ k := hne
      rw [mapSet, if_neg ha]
      exact List.mem_cons_self _ _
    · by_cases ha : a = k
      · subst ha
        rw [mapSet, if_pos rfl]
        exact List.mem_cons_of_mem _ h'
      · rw [mapSet, if_neg ha]
        exact List.mem_cons_of_mem _ (ih h')

theorem mem_of_mem_mapSet (m : List (κ × α)) (k : κ) (v : α) {p : κ × α}
    (hn : NodupKeys m) (hp : p ∈ mapSet m k v) :
    p = (k, v) ∨ (p ∈ m ∧ p.1 ≠ k) := by
  induction m with
  | nil => simpa [mapSet] using hp
  | cons q rest ih =>
    obtain ⟨a, b⟩ := q
    rw [NodupKeys, keysOf] at hn
    simp only [List.map_cons, List.nodup_cons] at hn
    by_cases ha : a = k
    · subst ha
      rcases List.mem_cons.mp (by simpa [mapSet] using hp) with h' | h'
      · exact Or.inl h'
      · refine Or.inr ⟨List.mem_cons_of_mem _ h', fun hk => ?_⟩
        exact hn.1 (hk ▸ mem_keysOf h')
    · rcases List.mem_cons.mp (by simpa [mapSet, ha] using hp) with h' | h'
      · subst h'
        exact Or.inr ⟨List.mem_cons_self _ _, ha⟩
      · rcases ih hn.2 h' with h'' | h''
        · exact Or.inl h''
        · exact Or.inr ⟨List.mem_cons_of_mem _ h''.1, h''.2⟩

theorem mem_of_mem_mapDel (m : List (κ × α)) (k : κ) {p : κ × α}
    (hp : p ∈ mapDel m k) : p ∈ m :=
  (mapDel_sublist m k).mem hp

theorem mem_mapDel_of_ne (m : List (κ × α)) (k : κ) {p : κ × α}
    (hp : p ∈ m) (hne : p.1 ≠ k) : p ∈ mapDel m k := by
  induction m with
  | nil => simp at hp
  | cons q rest ih =>
    obtain ⟨a, b⟩ := q
    rcases List.mem_cons.mp hp with h' | h'
    · subst h'
      have ha : a ≠ k := hne
      rw [mapDel, if_neg ha]
      exact List.mem_cons_self _ _
    · by_cases ha : a = k
      · rw [mapDel, if_pos ha]
        exact h'
      · rw [mapDel, if_neg ha]
        exact List.mem_cons_of_mem _ (ih h')

theorem mapDel_of_get_none (m : List (κ × α)) (k : κ)
    (h : mapGet m k = none) : mapDel m k = m := by
  induction m with
  | nil => rfl
  | cons q rest ih =>
    obtain ⟨a, b⟩ := q
    by_cases ha : a = k
    · rw [mapGet, if_pos ha] at h
      cases h
    · rw [mapGet, if_neg ha] at h
      rw [mapDel, if_neg ha, ih h]

theorem mem_of_get_mapDel {m : List (κ × α)} {k k' : κ} {v : α}
    (h : mapGet (mapDel m k) k' = some v) : (k', v) ∈ m :=
  mem_of_mem_mapDel m k (mapGet_mem _ h)

/-! ## Lemmas about `sendMessage`, `broadcastToRoom` and `sendsTo` -/

theorem sendsTo_append (a b : List Send) (c : Nat) :
    sendsTo (a ++ b) c = sendsTo a c ++ sendsTo b c := by
  simp [sendsTo, List.filterMap_append]

theorem sockOpen_socks_set_ne (s : ServerState) (c j : Nat) (k : Sock)
    (cs : List (String × Nat))
    (rt : List (String × List (String × Entry))) (h : j ≠ c) :
    sockOpen ⟨mapSet s.socks c k, cs, rt⟩ j = sockOpen s j := by
  unfold sockOpen
  rw [mapGet_set_ne _ _ h]

theorem sockOpen_socks_set_self (s : ServerState) (c : Nat) (k : Sock)
    (cs : List (String × Nat))
    (rt : List (String × List (String × Entry))) :
    sockOpen ⟨mapSet s.socks c k, cs, rt⟩ c = k.isOpen := by
  unfold sockOpen
  rw [mapGet_set_self]

theorem sockOpen_rooms_update (s : ServerState) (j : Nat)
    (cs : List (String × Nat))
    (rt : List (String × List (String × Entry))) :
    sockOpen ⟨s.socks, cs, rt⟩ j = sockOpen s j := rfl

theorem sendMessage_elem {s : ServerState} {c : Nat} {m : Msg} {p : Send}
    (hp : p ∈ sendMessage s c m) : p = (c, m) := by
  unfold sendMessage at hp
  split at hp
  · simpa using hp
  · simp at hp

theorem sendsTo_sendMessage_self {s : ServerState} {c : Nat} (m : Msg)
    (h : sockOpen s c = true) : sendsTo (sendMessage s c m) c = [m] := by
  simp [sendMessage, h, sendsTo]

theorem sendsTo_sendMessage_ne {s : ServerState} {c j : Nat} (m : Msg)
    (h : j ≠ c) : sendsTo (sendMessage s c m) j = [] := by
  unfold sendMessage
  split <;> simp [sendsTo, Ne.symm h]

theorem sendsTo_sendMessage_closed {s : ServerState} {c : Nat} (m : Msg)
    (j : Nat) (h : sockOpen s c = false) :
    sendsTo (sendMessage s c m) j = [] := by
  simp [sendMessage, h, sendsTo]

theorem broadcastToRoom_elem {s : ServerState} {roomId : String} {m : Msg}
    {excl : Option String} {p : Send}
    (hp : p ∈ broadcastToRoom s roomId m excl) : p.2 = m := by
  unfold broadcastToRoom at hp
  rcases hget : mapGet s.rooms roomId with _ | ru
  · rw [hget] at hp
    simp at hp
  · rw [hget] at hp
    simp only [List.mem_flatMap] at hp
    obtain ⟨q, _, hq⟩ := hp
    split at hq
    · simp at hq
    · rw [sendMessage_elem hq]

theorem broadcastToRoom_of_none {s : ServerState} {roomId : String}
    (m : Msg) (excl : Option String) (hget : mapGet s.rooms roomId = none) :
    broadcastToRoom s roomId m excl = [] := by
  unfold broadcastToRoom
  rw [hget]

/-- Fanout delivers nothing to `j` when every room entry on `j`'s
connection is excluded or `j`'s socket is not open. -/
theorem sendsTo_fanout_nil (s : ServerState) (m : Msg) (excl : Option String)
    (j : Nat) :
    ∀ ru : List (String × Entry),
      (∀ p ∈ ru, p.2.connId = j → excl = some p.1 ∨ sockOpen s j = false) →
      sendsTo (ru.flatMap fun p =>
        if excl = some p.1 then [] else sendMessage s p.2.connId m) j = [] := by
  intro ru
  induction ru with
  | nil => intro _; simp [sendsTo]
  | cons q tail ih =>
    intro hnone
    rw [List.flatMap_cons, sendsTo_append]
    have htail := ih fun p hp => hnone p (List.mem_cons_of_mem _ hp)
    rw [htail, List.append_nil]
    by_cases he : excl = some q.1
    · rw [if_pos he]
      simp [sendsTo]
    · rw [if_neg he]
      by_cases hcj : q.2.connId = j
      · rcases hnone q (List.mem_cons_self _ _) hcj with h' | h'
        · exact absurd h' he
        · rw [hcj]
          exact sendsTo_sendMessage_closed m j h'
      · exact sendsTo_sendMessage_ne m fun hj => hcj hj.symm

/-- Fanout delivers exactly one copy of the message to `j` when `j` is the
connection of exactly one entry of the room, that entry is not excluded,
and `j`'s socket is open. -/
theorem sendsTo_fanout_single (s : ServerState) (m : Msg)
    (excl : Option String) (j : Nat) :
    ∀ ru : List (String × Entry), NodupKeys ru →
      ∀ v e, (v, e) ∈ ru → e.connId = j → excl ≠ some v →
        sockOpen s j = true →
        (∀ p ∈ ru, p.2.connId = j → p = (v, e)) →
        sendsTo (ru.flatMap fun p =>
          if excl = some p.1 then [] else sendMessage s p.2.connId m) j = [m] := by
  intro ru
  induction ru with
  | nil => intro _ v e hmem; simp at hmem
  | cons q tail ih =>
    intro hn v e hmem hcj hne hopen huniq
    rw [nodupKeys_cons] at hn
    rw [List.flatMap_cons, sendsTo_append]
    rcases List.mem_cons.mp hmem with hq | hq
    · subst hq
      have htail : sendsTo (tail.flatMap fun p =>
          if excl = some p.1 then [] else sendMessage s p.2.connId m) j = [] := by
        refine sendsTo_fanout_nil s m excl j tail fun p hp hpj => ?_
        have := huniq p (List.mem_cons_of_mem _ hp) hpj
        subst this
        exact absurd (mem_keysOf hp) hn.1
      rw [htail, List.append_nil, if_neg (fun h => hne h), ← hcj]
      exact sendsTo_sendMessage_self m (hcj ▸ hopen)
    · have hqj : q.2.connId ≠ j := by
        intro hj
        have := huniq q (List.mem_cons_self _ _) hj
        subst this
        exact hn.1 (mem_keysOf hq)
      have hhead : sendsTo (if excl = some q.1 then []
          else sendMessage s q.2.connId m) j = [] := by
        split
        · simp [sendsTo]
        · exact sendsTo_sendMessage_ne m fun hj => hqj hj.symm
      rw [hhead, List.nil_append]
      exact ih hn.2 v e hq hcj hne hopen
        fun p hp => huniq p (List.mem_cons_of_mem _ hp)

/-- `sendsTo_fanout_nil` specialised to `broadcastToRoom`. -/
theorem sendsTo_broadcast_nil {s : ServerState} {roomId : String}
    {ru : List (String × Entry)} (m : Msg) (excl : Option String) (j : Nat)
    (hget : mapGet s.rooms roomId = some ru)
    (hnone : ∀ p ∈ ru, p.2.connId = j → excl = some p.1 ∨ sockOpen s j = false) :
    sendsTo (broadcastToRoom s roomId m excl) j = [] := by
  unfold broadcastToRoom
  rw [hget]
  exact sendsTo_fanout_nil s m excl j ru hnone

/-- `sendsTo_fanout_single` specialised to `broadcastToRoom`. -/
theorem sendsTo_broadcast_single {s : ServerState} {roomId : String}
    {ru : List (String × Entry)} {v : String} {e : Entry} (m : Msg)
    (excl : Option String) (j : Nat)
    (hget : mapGet s.rooms roomId = some ru) (hn : NodupKeys ru)
    (hmem : (v, e) ∈ ru) (hcj : e.connId = j) (hne : excl ≠ some v)
    (hopen : sockOpen s j = true)
    (huniq : ∀ p ∈ ru, p.2.connId = j → p = (v, e)) :
    sendsTo (broadcastToRoom s roomId m excl) j = [m] := by
  unfold broadcastToRoom
  rw [hget]
  exact sendsTo_fanout_single s m excl j ru hn v e hmem hcj hne hopen huniq

/-! ## Preservation of room-table well-formedness -/

theorem mapSet_ne_nil (m : List (κ × α)) (k : κ) (v : α) :
    mapSet m k v ≠ [] := by
  cases m with
  | nil => simp [mapSet]
  | cons p rest =>
    obtain ⟨a, b⟩ := p
    by_cases h : a = k <;> simp [mapSet, h]

/-- Inserting a member entry (the join shape) preserves table
well-formedness. -/
theorem wfTable_set_member (rt : List (String × List (String × Entry)))
    (r u : String) (e : Entry) (h : WfRoomsTable rt) :
    WfRoomsTable (mapSet rt r (mapSet ((mapGet rt r).getD []) u e)) := by
  obtain ⟨h1, h2⟩ := h
  refine ⟨nodupKeys_set _ _ _ h1, ?_⟩
  intro r' m' hg
  by_cases hr : r' = r
  · subst hr
    rw [mapGet_set_self] at hg
    injection hg with hg
    subst hg
    refine ⟨nodupKeys_set _ _ _ ?_, mapSet_ne_nil _ _ _⟩
    rcases hm0 : mapGet rt r' with _ | m0
    · simp [NodupKeys, keysOf]
    · exact (h2 r' m0 hm0).1
  · rw [mapGet_set_ne _ _ hr] at hg
    exact h2 r' m' hg

/-- Removing a member whose removal empties the room, together with the
room-key deletion (the leave/disconnect shape, empty case). -/
theorem wfTable_del_room (rt : List (String × List (String × Entry)))
    (r u : String) (ru : List (String × Entry)) (h : WfRoomsTable rt) :
    WfRoomsTable (mapDel (mapSet rt r (mapDel ru u)) r) := by
  obtain ⟨h1, h2⟩ := h
  have hset : NodupKeys (mapSet rt r (mapDel ru u)) := nodupKeys_set _ _ _ h1
  refine ⟨nodupKeys_del _ _ hset, ?_⟩
  intro r' m' hg
  by_cases hr : r' = r
  · subst hr
    rw [mapGet_del_self _ _ hset] at hg
    cases hg
  · rw [mapGet_del_ne _ hr, mapGet_set_ne _ _ hr] at hg
    exact h2 r' m' hg

/-- Removing a member that leaves the room non-empty (the
leave/disconnect shape, non-empty case). -/
theorem wfTable_del_member (rt : List (String × List (String × Entry)))
    (r u : String) (ru : List (String × Entry))
    (hget : mapGet rt r = some ru)
    (hemp : (mapDel ru u).isEmpty = false) (h : WfRoomsTable rt) :
    WfRoomsTable (mapSet rt r (mapDel ru u)) := by
  obtain ⟨h1, h2⟩ := h
  refine ⟨nodupKeys_set _ _ _ h1, ?_⟩
  intro r' m' hg
  by_cases hr : r' = r
  · subst hr
    rw [mapGet_set_self] at hg
    injection hg with hg
    subst hg
    refine ⟨nodupKeys_del _ _ (h2 r' ru hget).1, ?_⟩
    intro hnil
    rw [hnil] at hemp
    simp at hemp
  · rw [mapGet_set_ne _ _ hr] at hg
    exact h2 r' m' hg

/-- Every single operation preserves room-table well-formedness, on
arbitrary states and with no admissibility assumption. -/
theorem wfRooms_step (s : ServerState) (op : Op) (h : wfRooms s) :
    wfRooms (stepOp s op) := by
  cases op with
  | connect c => exact h
  | join c u un r =>
    rcases hs : mapGet s.socks c with _ | sock
    · simp only [stepOp, handleJoinRoom, hs]
      exact h
    · simp only [stepOp, handleJoinRoom, hs]
      exact wfTable_set_member s.rooms r u ⟨u, un, c, 0⟩ h
  | joinFail c r =>
    rcases hs : mapGet s.socks c with _ | sock <;>
      simp only [stepOp, handleJoinRoom, hs] <;> exact h
  | leave c rf =>
    rcases hs : mapGet s.socks c with _ | sock
    · simp only [stepOp, handleLeaveRoom, hs]
      exact h
    · rcases hu : sock.userId with _ | u
      · rcases hr : sock.roomId with _ | r <;>
          simp only [stepOp, handleLeaveRoom, hs, hu, hr] <;> exact h
      · rcases hr : sock.roomId with _ | r
        · simp only [stepOp, handleLeaveRoom, hs, hu, hr]
          exact h
        · simp only [stepOp, handleLeaveRoom, hs, hu, hr]
          rcases hget : mapGet s.rooms r with _ | ru
          · simp only [hget]
            exact h
          · rcases hgu : mapGet ru u with _ | uc
            · simp only [hget, hgu]
              exact h
            · simp only [hget, hgu]
              by_cases hemp : (mapDel ru u).isEmpty = true
              · simp only [hemp, if_true]
                exact wfTable_del_room s.rooms r u ru h
              · simp only [Bool.not_eq_true] at hemp
                simp only [hemp, Bool.false_eq_true, if_false]
                exact wfTable_del_member s.rooms r u ru hget hemp h
  | disconnect c =>
    rcases hs : mapGet s.socks c with _ | sock
    · simp only [stepOp, handleDisconnection, hs]
      exact h
    · rcases hu : sock.userId with _ | u
      · simp only [stepOp, handleDisconnection, hs, hu]
        exact h
      · rcases hr : sock.roomId with _ | r
        · simp only [stepOp, handleDisconnection, hs, hu, hr]
          exact h
        · simp only [stepOp, handleDisconnection, hs, hu, hr]
          rcases hget : mapGet s.rooms r with _ | ru
          · simp only [hget]
            exact h
          · rcases hgu : mapGet ru u with _ | uc
            · simp only [hget, hgu]
              exact h
            · simp only [hget, hgu]
              by_cases hemp : (mapDel ru u).isEmpty = true
              · simp only [hemp, if_true]
                exact wfTable_del_room s.rooms r u ru h
              · simp only [Bool.not_eq_true] at hemp
                simp only [hemp, Bool.false_eq_true, if_false]
                exact wfTable_del_member s.rooms r u ru hget hemp h

theorem wfRooms_initState : wfRooms initState := by
  constructor
  · simp [initState, NodupKeys, keysOf]
  · intro r m hg
    simp [initState, mapGet] at hg

theorem wfRooms_run (ops : List Op) :
    ∀ s, wfRooms s → wfRooms (runOps s ops) := by
  induction ops with
  | nil => intro s h; exact h
  | cons op rest ih => intro s h; exact ih _ (wfRooms_step s op h)

/-- C2 — In every state reachable by join, leave, and disconnect
operations, a roomId is a key of the room-membership table only while its
member map is non-empty (the converse is immediate: an absent key has no
member map); in particular, after the sole member of a room leaves, the
room key is absent from subsequent queries. -/
theorem c2_room_key_iff_members :
    (∀ ops : List Op, noEmptyRooms (runOps initState ops) = true) ∧
    mapGet (runOps initState
      [.connect 0, .join 0 "u" "n" "r1", .leave 0 "r1"]).rooms "r1" = none := by
  constructor
  · intro ops
    have h := wfRooms_run ops initState wfRooms_initState
    rw [noEmptyRooms, List.all_eq_true]
    intro p hp
    obtain ⟨a, b⟩ := p
    have hg : mapGet (runOps initState ops).rooms a = some b :=
      mem_mapGet _ h.1 hp
    have hne := (h.2 a b hg).2
    cases hpe : b with
    | nil => exact absurd hpe hne
    | cons q t => simp
  · decide

/-- C8 — A JoinRoom whose credential fails verification (`app.jwt.verify`
threw) sends exactly one `Error{JOIN_ROOM_FAILED}` envelope back to the
originating open connection and mutates nothing: registry, room table and
socket bindings are the unchanged input state, so the connection stays
unauthenticated and may retry. -/
theorem c8_join_failure_no_mutation (s : ServerState) (c : Nat) (k : Sock)
    (roomId : String) (now : Nat)
    (hs : mapGet s.socks c = some k) (hopen : k.isOpen = true) :
    handleJoinRoom s c none roomId now =
      (s, [(c, Msg.error "JOIN_ROOM_FAILED" now)]) := by
  simp only [handleJoinRoom, hs, sendError, sendMessage, sockOpen, hopen,
    if_true]

/-- Witness for C8 at a concrete one-socket state. -/
theorem c8_witness :
    handleJoinRoom ⟨[(0, ⟨none, none, true⟩)], [], []⟩ 0 none "r1" 7 =
      (⟨[(0, ⟨none, none, true⟩)], [], []⟩,
       [(0, Msg.error "JOIN_ROOM_FAILED" 7)]) :=
  c8_join_failure_no_mutation _ 0 ⟨none, none, true⟩ "r1" 7 (by decide)
    (by decide)

/-- C6 — Every envelope produced by the chat, media-control and
screen-share handlers for a connection bound to identity `u` carries
`senderId = u` and the server tick `now`, for every client-supplied
envelope (in particular whatever `senderId` and `timestamp` the client
put in it). -/
theorem c6_server_stamps_sender_and_timestamp (s : ServerState) (c : Nat)
    (k : Sock) (u r : String) (now : Nat)
    (hs : mapGet s.socks c = some k) (hu : k.userId = some u)
    (hr : k.roomId = some r) :
    (∀ (env : ChatEnvelope) (msgId : String),
      ∀ p ∈ (handleChatMessage s c env msgId now).2,
        senderOf p.2 = some u ∧ stampOf p.2 = now) ∧
    (∀ env : MediaEnvelope, ∀ p ∈ (handleMediaControl s c env now).2,
        senderOf p.2 = some u ∧ stampOf p.2 = now) ∧
    (∀ env : ShareEnvelope, ∀ p ∈ (handleScreenShare s c env now).2,
        senderOf p.2 = some u ∧ stampOf p.2 = now) := by
  refine ⟨?_, ?_, ?_⟩
  · intro env msgId p hp
    simp only [handleChatMessage, hs, hu, hr] at hp
    rw [broadcastToRoom_elem hp]
    exact ⟨rfl, rfl⟩
  · intro env p hp
    simp only [handleMediaControl, hs, hu, hr] at hp
    rw [broadcastToRoom_elem hp]
    exact ⟨rfl, rfl⟩
  · intro env p hp
    simp only [handleScreenShare, hs, hu, hr] at hp
    rw [broadcastToRoom_elem hp]
    exact ⟨rfl, rfl⟩

/-- Witness for C6: member `a` (connection 10) of the concrete room sends
a chat envelope with forged `senderId`/`timestamp`; the copy member `c`
receives is stamped with `a` and the server tick. -/
theorem c6_witness :
    senderOf (Msg.chat "r" "hi" "a" "m1" 99) = some "a" ∧
    stampOf (Msg.chat "r" "hi" "a" "m1" 99) = 99 :=
  (c6_server_stamps_sender_and_timestamp c7State 10 ⟨some "a", some "r", true⟩
      "a" "r" 99 (by decide) (by decide) (by decide)).1
    ⟨"r", "hi", "zzz-forged", "forged-id", 123⟩ "m1"
    (10, Msg.chat "r" "hi" "a" "m1" 99) (by decide)

/-- C9 — The leave handler never reads the envelope's `roomId` (it
operates on the room bound to the socket), and for a bound connection
whose bound room holds no membership entry for its userId it still
unconditionally deletes the userId from the connection registry and
clears the socket's identity/room bindings, broadcasting nothing. -/
theorem c9_leave_uses_bound_room (s : ServerState) (c : Nat) (k : Sock)
    (u r : String) (now : Nat)
    (hs : mapGet s.socks c = some k) (hu : k.userId = some u)
    (hr : k.roomId = some r)
    (hnomem : mapGet ((mapGet s.rooms r).getD []) u = none) :
    (∀ (s' : ServerState) (c' : Nat) (n' : Nat) (r1 r2 : String),
      handleLeaveRoom s' c' r1 n' = handleLeaveRoom s' c' r2 n') ∧
    (∀ rf : String,
      handleLeaveRoom s c rf now =
        (⟨mapSet s.socks c { k with userId := none, roomId := none },
          mapDel s.connections u, s.rooms⟩, [])) := by
  constructor
  · intro s' c' n' r1 r2
    rfl
  · intro rf
    simp only [handleLeaveRoom, hs, hu, hr]
    rcases hg : mapGet s.rooms r with _ | ru
    · rfl
    · rw [hg] at hnomem
      simp only [Option.getD_some] at hnomem
      simp only [hnomem]

/-- Witness for C9: a socket bound to a room whose member map lacks its
userId (the room holds only `b`). -/
theorem c9_witness :
    handleLeaveRoom ⟨[(0, ⟨some "a", some "r", true⟩),
                      (1, ⟨some "b", some "r", true⟩)],
                     [("a", 0), ("b", 1)],
                     [("r", [("b", ⟨"b", "b", 1, 0⟩)])]⟩ 0 "other-room" 3 =
      (⟨[(0, ⟨none, none, true⟩), (1, ⟨some "b", some "r", true⟩)],
        [("b", 1)],
        [("r", [("b", ⟨"b", "b", 1, 0⟩)])]⟩, []) := by
  have h := c9_leave_uses_bound_room
    ⟨[(0, ⟨some "a", some "r", true⟩), (1, ⟨some "b", some "r", true⟩)],
     [("a", 0), ("b", 1)], [("r", [("b", ⟨"b", "b", 1, 0⟩)])]⟩
    0 ⟨some "a", some "r", true⟩ "a" "r" 3 (by decide) (by decide)
    (by decide) (by decide)
  exact h.2 "other-room"

/-- C7, counterexample — at a three-member room whose member `b` (conn 11)
has a non-open transport, the broadcast delivers to the two open members
but, contrary to the claim, the failed recipient is not scheduled for the
standard disconnect cleanup: the state after the call still holds `b`'s
membership (and registry entry), whereas the behaviour the claim
describes (`specBroadcastWithCleanup`) removes it.  The source also logs
nothing on the skipped recipient. -/
theorem c7_counterexample :
    (broadcastToRoomStep c7State "r" (.chat "r" "hi" "a" "m1" 1) none).2 =
      [(10, .chat "r" "hi" "a" "m1" 1), (12, .chat "r" "hi" "a" "m1" 1)] ∧
    (broadcastToRoomStep c7State "r" (.chat "r" "hi" "a" "m1" 1) none).1 =
      c7State ∧
    codeMembers (broadcastToRoomStep c7State "r"
      (.chat "r" "hi" "a" "m1" 1) none).1 "r" = ["a", "b", "c"] ∧
    codeMembers (specBroadcastWithCleanup c7State "r"
      (.chat "r" "hi" "a" "m1" 1) none 1).1 "r" = ["a", "c"] := by
  refine ⟨?_, rfl, ?_, ?_⟩ <;> decide

/-- C7, amended — per-recipient delivery is independent: whatever
non-open members a room has, every open, non-excluded member whose
connection carries exactly one of the room's entries still receives
exactly one copy, no error is raised (the function is total and returns
its sends), and no server state is mutated; the failed recipients are
silently skipped. -/
theorem c7_amended_broadcast_partial_failure (s : ServerState)
    (roomId : String) (m : Msg) (excl : Option String)
    (ru : List (String × Entry))
    (hget : mapGet s.rooms roomId = some ru) (hn : NodupKeys ru) :
    (broadcastToRoomStep s roomId m excl).1 = s ∧
    ∀ v e, (v, e) ∈ ru → excl ≠ some v → sockOpen s e.connId = true →
      (∀ p ∈ ru, p.2.connId = e.connId → p = (v, e)) →
      sendsTo (broadcastToRoomStep s roomId m excl).2 e.connId = [m] := by
  refine ⟨rfl, ?_⟩
  intro v e hmem hne hopen huniq
  exact sendsTo_broadcast_single m excl e.connId hget hn hmem rfl hne hopen
    huniq

/-- Witness for the amended C7 at the concrete state where `b`'s
transport is down: open member `c` (conn 12) still gets the message. -/
theorem c7_amended_witness :
    (broadcastToRoomStep c7State "r" (.chat "r" "hi" "a" "m1" 1) none).1 =
      c7State ∧
    sendsTo (broadcastToRoomStep c7State "r"
      (.chat "r" "hi" "a" "m1" 1) none).2 12 = [.chat "r" "hi" "a" "m1" 1] := by
  have h := c7_amended_broadcast_partial_failure c7State "r"
    (.chat "r" "hi" "a" "m1" 1) none
    [("a", ⟨"a", "a", 10, 0⟩), ("b", ⟨"b", "b", 11, 0⟩),
     ("c", ⟨"c", "c", 12, 0⟩)] (by decide)
    (by unfold NodupKeys keysOf; decide)
  exact ⟨h.1, h.2 "c" ⟨"c", "c", 12, 0⟩ (by decide) (by decide) (by decide)
    (by decide)⟩

/-- C5 — On a successful JoinRoom, the joiner is sent exactly its
`RoomState` snapshot (no `UserJoined` for its own join), the snapshot is
taken after the joiner's entry was inserted so the joiner appears in it,
and every pre-existing open member other than the joiner is sent exactly
one envelope: the `UserJoined` for this join. -/
theorem c5_join_notifications (s : ServerState) (c : Nat) (k : Sock)
    (u un roomId : String) (now : Nat)
    (hs : mapGet s.socks c = some k) (hopen : k.isOpen = true)
    (hn : NodupKeys ((mapGet s.rooms roomId).getD []))
    (hinj : ∀ p ∈ (mapGet s.rooms roomId).getD [],
      ∀ q ∈ (mapGet s.rooms roomId).getD [], p.2.connId = q.2.connId → p = q)
    (hc : ∀ p ∈ (mapGet s.rooms roomId).getD [], p.2.connId = c → p.1 = u) :
    (∃ users, sendsTo (handleJoinRoom s c (some (u, un)) roomId now).2 c =
        [.roomState roomId users now] ∧ (u, un, now) ∈ users) ∧
    (∀ v e, (v, e) ∈ (mapGet s.rooms roomId).getD [] → v ≠ u →
      sockOpen s e.connId = true →
      sendsTo (handleJoinRoom s c (some (u, un)) roomId now).2 e.connId =
        [.userJoined roomId u un now]) := by
  set e0 : Entry := ⟨u, un, c, now⟩ with he0
  set m0 := (mapGet s.rooms roomId).getD [] with hm0
  set k' : Sock := { k with userId := some u, roomId := some roomId } with hk'
  set ru' := mapSet m0 u e0 with hru'
  set sN : ServerState :=
    ⟨mapSet s.socks c k', mapSet s.connections u c,
     mapSet s.rooms roomId ru'⟩ with hsN
  set msgJ : Msg := .userJoined roomId u un now with hmsgJ
  set users := ru'.map fun p => (p.2.userId, p.2.username, p.2.joinedAt)
    with husers
  set msgR : Msg := .roomState roomId users now with hmsgR
  have hsnd : (handleJoinRoom s c (some (u, un)) roomId now).2 =
      broadcastToRoom sN roomId msgJ (some u) ++ sendMessage sN c msgR := by
    rw [hsN, hru', hm0, hk', he0, hmsgJ, hmsgR, husers, hru', hm0, he0]
    simp only [handleJoinRoom, hs]
  have hget2 : mapGet sN.rooms roomId = some ru' := mapGet_set_self _ _ _
  have hn' : NodupKeys ru' := nodupKeys_set _ _ _ hn
  constructor
  · refine ⟨users, ?_, ?_⟩
    · rw [hsnd, sendsTo_append]
      have hb : sendsTo (broadcastToRoom sN roomId msgJ (some u)) c = [] := by
        refine sendsTo_broadcast_nil _ _ _ hget2 fun p hp hpc => ?_
        rcases mem_of_mem_mapSet _ _ _ hn hp with h' | h'
        · subst h'
          exact Or.inl rfl
        · exact absurd (hc p h'.1 hpc) h'.2
      have hsm : sendsTo (sendMessage sN c msgR) c = [msgR] := by
        refine sendsTo_sendMessage_self _ ?_
        rw [hsN, sockOpen_socks_set_self]
        exact hopen
      rw [hb, hsm, List.nil_append, hmsgR]
    · exact List.mem_map.mpr ⟨(u, e0), mem_mapSet_self _ _ _, rfl⟩
  · intro v e hmem hvne hov
    have hecc : e.connId ≠ c := fun hcc => hvne (hc (v, e) hmem hcc)
    have hmem' : (v, e) ∈ ru' := mem_mapSet_of_ne _ _ _ hmem hvne
    have huniq : ∀ p ∈ ru', p.2.connId = e.connId → p = (v, e) := by
      intro p hp hpc
      rcases mem_of_mem_mapSet _ _ _ hn hp with h' | h'
      · subst h'
        exact absurd hpc.symm hecc
      · exact hinj p h'.1 (v, e) hmem hpc
    have hopen2 : sockOpen sN e.connId = true := by
      rw [hsN, sockOpen_socks_set_ne _ _ _ _ _ _ hecc]
      exact hov
    rw [hsnd, sendsTo_append,
      sendsTo_broadcast_single _ _ _ hget2 hn' hmem' rfl
        (fun hh => hvne (Option.some.inj hh).symm) hopen2 huniq,
      sendsTo_sendMessage_ne _ hecc, List.append_nil, hmsgJ]

/-- Witness for C5: user `a` joins room `r` that already holds open
member `b`; `b` gets exactly one `UserJoined`, `a` gets a snapshot
containing itself. -/
theorem c5_witness :
    (∃ users, sendsTo (handleJoinRoom
        ⟨[(0, ⟨none, none, true⟩), (1, ⟨some "b", some "r", true⟩)],
         [("b", 1)], [("r", [("b", ⟨"b", "bb", 1, 0⟩)])]⟩
        0 (some ("a", "aa")) "r" 5).2 0 =
      [.roomState "r" users 5] ∧ ("a", "aa", 5) ∈ users) ∧
    sendsTo (handleJoinRoom
        ⟨[(0, ⟨none, none, true⟩), (1, ⟨some "b", some "r", true⟩)],
         [("b", 1)], [("r", [("b", ⟨"b", "bb", 1, 0⟩)])]⟩
        0 (some ("a", "aa")) "r" 5).2 1 =
      [.userJoined "r" "a" "aa" 5] := by
  have h := c5_join_notifications
    ⟨[(0, ⟨none, none, true⟩), (1, ⟨some "b", some "r", true⟩)],
     [("b", 1)], [("r", [("b", ⟨"b", "bb", 1, 0⟩)])]⟩
    0 ⟨none, none, true⟩ "a" "aa" "r" 5 (by decide) (by decide)
    (by unfold NodupKeys keysOf; decide) (by decide) (by decide)
  exact ⟨h.1, h.2 "b" ⟨"b", "bb", 1, 0⟩ (by decide) (by decide) (by decide)⟩

/-- C10 — A chat message from a joined connection is broadcast with no
exclusion, so every open member — the sender included — receives exactly
one stamped copy; media-control and screen-share messages are broadcast
excluding the sender: the sender receives nothing and every other open
member receives exactly one stamped copy. -/
theorem c10_chat_echoes_sender_media_excludes (s : ServerState) (c : Nat)
    (k : Sock) (u r : String) (now : Nat) (ru : List (String × Entry))
    (eu : Entry)
    (hs : mapGet s.socks c = some k) (hu : k.userId = some u)
    (hr : k.roomId = some r)
    (hget : mapGet s.rooms r = some ru) (hn : NodupKeys ru)
    (hinj : ∀ p ∈ ru, ∀ q ∈ ru, p.2.connId = q.2.connId → p = q)
    (hmemu : (u, eu) ∈ ru) (heuc : eu.connId = c) :
    (∀ (env : ChatEnvelope) (msgId : String) (v : String) (e : Entry),
      (v, e) ∈ ru → sockOpen s e.connId = true →
      sendsTo (handleChatMessage s c env msgId now).2 e.connId =
        [.chat env.roomId env.text u msgId now]) ∧
    (∀ env : MediaEnvelope,
      sendsTo (handleMediaControl s c env now).2 c = [] ∧
      ∀ v e, (v, e) ∈ ru → v ≠ u → sockOpen s e.connId = true →
        sendsTo (handleMediaControl s c env now).2 e.connId =
          [.mediaControl env.roomId env.action u now]) ∧
    (∀ env : ShareEnvelope,
      sendsTo (handleScreenShare s c env now).2 c = [] ∧
      ∀ v e, (v, e) ∈ ru → v ≠ u → sockOpen s e.connId = true →
        sendsTo (handleScreenShare s c env now).2 e.connId =
          [.screenShare env.start env.roomId u now]) := by
  have huniqOf : ∀ (v : String) (e : Entry), (v, e) ∈ ru →
      ∀ p ∈ ru, p.2.connId = e.connId → p = (v, e) :=
    fun v e hmem p hp hpj => hinj p hp (v, e) hmem hpj
  have hsndNil : ∀ m : Msg,
      sendsTo (broadcastToRoom s r m (some u)) c = [] := by
    intro m
    refine sendsTo_broadcast_nil _ _ _ hget fun p hp hpc => ?_
    have := hinj p hp (u, eu) hmemu (hpc.trans heuc.symm)
    rw [this]
    exact Or.inl rfl
  refine ⟨?_, ?_, ?_⟩
  · intro env msgId v e hmem hopen
    have hout : (handleChatMessage s c env msgId now).2 =
        broadcastToRoom s r (.chat env.roomId env.text u msgId now) none := by
      simp only [handleChatMessage, hs, hu, hr]
    rw [hout]
    exact sendsTo_broadcast_single _ _ _ hget hn hmem rfl
      (fun hh => Option.noConfusion hh) hopen (huniqOf v e hmem)
  · intro env
    have hout : (handleMediaControl s c env now).2 =
        broadcastToRoom s r (.mediaControl env.roomId env.action u now)
          (some u) := by
      simp only [handleMediaControl, hs, hu, hr]
    refine ⟨by rw [hout]; exact hsndNil _, ?_⟩
    intro v e hmem hvne hopen
    rw [hout]
    exact sendsTo_broadcast_single _ _ _ hget hn hmem rfl
      (fun hh => hvne (Option.some.inj hh).symm) hopen (huniqOf v e hmem)
  · intro env
    have hout : (handleScreenShare s c env now).2 =
        broadcastToRoom s r (.screenShare env.start env.roomId u now)
          (some u) := by
      simp only [handleScreenShare, hs, hu, hr]
    refine ⟨by rw [hout]; exact hsndNil _, ?_⟩
    intro v e hmem hvne hopen
    rw [hout]
    exact sendsTo_broadcast_single _ _ _ hget hn hmem rfl
      (fun hh => hvne (Option.some.inj hh).symm) hopen (huniqOf v e hmem)

/-- Witness for C10 at the concrete three-member room `c7State`: sender
`a` (conn 10) gets its own chat copy back, gets nothing back for a media
control, while member `c` (conn 12) receives both. -/
theorem c10_witness :
    sendsTo (handleChatMessage c7State 10 ⟨"r", "hi", "x", "y", 0⟩ "m1" 4).2
      10 = [.chat "r" "hi" "a" "m1" 4] ∧
    sendsTo (handleMediaControl c7State 10 ⟨"r", "play", "x", 0⟩ 4).2 10 =
      [] ∧
    sendsTo (handleMediaControl c7State 10 ⟨"r", "play", "x", 0⟩ 4).2 12 =
      [.mediaControl "r" "play" "a" 4] := by
  have h := c10_chat_echoes_sender_media_excludes c7State 10
    ⟨some "a", some "r", true⟩ "a" "r" 4
    [("a", ⟨"a", "a", 10, 0⟩), ("b", ⟨"b", "b", 11, 0⟩),
     ("c", ⟨"c", "c", 12, 0⟩)] ⟨"a", "a", 10, 0⟩
    (by decide) (by decide) (by decide) (by decide)
    (by unfold NodupKeys keysOf; decide) (by decide) (by decide) (by decide)
  exact ⟨h.1 ⟨"r", "hi", "x", "y", 0⟩ "m1" "a" ⟨"a", "a", 10, 0⟩ (by decide)
      (by decide),
    (h.2.1 ⟨"r", "play", "x", 0⟩).1,
    (h.2.1 ⟨"r", "play", "x", 0⟩).2 "c" ⟨"c", "c", 12, 0⟩ (by decide)
      (by decide) (by decide)⟩

/-- C4 — Disconnect cleanup is idempotent: for a connection that is a
joined member of a room, running `handleDisconnection` twice leaves the
second run with the state of the first (registry and membership
unchanged), the second run emits nothing (safe no-op, no error), and each
remaining open member receives in total exactly one `UserLeft` envelope
across both runs. -/
theorem c4_disconnect_idempotent (s : ServerState) (c : Nat) (k : Sock)
    (u r : String) (now now' : Nat) (ru : List (String × Entry)) (eu : Entry)
    (hs : mapGet s.socks c = some k) (hu : k.userId = some u)
    (hr : k.roomId = some r)
    (hget : mapGet s.rooms r = some ru) (hgu : mapGet ru u = some eu)
    (hnr : NodupKeys s.rooms) (hnru : NodupKeys ru)
    (hnc : NodupKeys s.connections)
    (hinj : ∀ p ∈ ru, ∀ q ∈ ru, p.2.connId = q.2.connId → p = q) :
    (handleDisconnection (handleDisconnection s c now).1 c now').1 =
      (handleDisconnection s c now).1 ∧
    (handleDisconnection (handleDisconnection s c now).1 c now').2 = [] ∧
    (∀ v e, (v, e) ∈ ru → v ≠ u → sockOpen s e.connId = true →
      sendsTo ((handleDisconnection s c now).2 ++
        (handleDisconnection (handleDisconnection s c now).1 c now').2)
        e.connId = [.userLeft r u eu.username now]) := by
  have houtB : ∀ v e, (v, e) ∈ ru → v ≠ u → sockOpen s e.connId = true →
      sendsTo (broadcastToRoom
        (⟨s.socks, s.connections, mapSet s.rooms r (mapDel ru u)⟩ :
          ServerState) r (.userLeft r u eu.username now) (some u))
        e.connId = [.userLeft r u eu.username now] := by
    intro v e hmem hvne hov
    have hgetA : mapGet
        ((⟨s.socks, s.connections, mapSet s.rooms r (mapDel ru u)⟩ :
          ServerState)).rooms r = some (mapDel ru u) := mapGet_set_self _ _ _
    have hmem' : (v, e) ∈ mapDel ru u := mem_mapDel_of_ne _ _ hmem hvne
    have huniq : ∀ p ∈ mapDel ru u, p.2.connId = e.connId → p = (v, e) :=
      fun p hp hpj => hinj p (mem_of_mem_mapDel _ _ hp) (v, e) hmem hpj
    have hov' : sockOpen
        (⟨s.socks, s.connections, mapSet s.rooms r (mapDel ru u)⟩ :
          ServerState) e.connId = true := by
      rw [sockOpen_rooms_update]
      exact hov
    exact sendsTo_broadcast_single _ _ _ hgetA (nodupKeys_del _ _ hnru)
      hmem' rfl (fun hh => hvne (Option.some.inj hh).symm) hov' huniq
  by_cases hemp : (mapDel ru u).isEmpty = true
  · have ha : handleDisconnection s c now =
        (⟨s.socks, mapDel s.connections u,
          mapDel (mapSet s.rooms r (mapDel ru u)) r⟩,
         broadcastToRoom
           (⟨s.socks, s.connections, mapSet s.rooms r (mapDel ru u)⟩ :
             ServerState) r (.userLeft r u eu.username now) (some u)) := by
      simp only [handleDisconnection, hs, hu, hr, hget, hgu, hemp, if_true]
    have hgN : mapGet (mapDel (mapSet s.rooms r (mapDel ru u)) r) r = none :=
      mapGet_del_self _ _ (nodupKeys_set _ _ _ hnr)
    have hdelc : mapDel (mapDel s.connections u) u = mapDel s.connections u :=
      mapDel_of_get_none _ _ (mapGet_del_self _ _ hnc)
    have hb : handleDisconnection
        (⟨s.socks, mapDel s.connections u,
          mapDel (mapSet s.rooms r (mapDel ru u)) r⟩ : ServerState) c now' =
        (⟨s.socks, mapDel s.connections u,
          mapDel (mapSet s.rooms r (mapDel ru u)) r⟩, []) := by
      simp only [handleDisconnection, hs, hu, hr, hgN, hdelc]
    refine ⟨?_, ?_, ?_⟩
    · simp only [ha, hb]
    · simp only [ha, hb]
    · intro v e hmem hvne hov
      simp only [ha, hb, List.append_nil]
      exact houtB v e hmem hvne hov
  · simp only [Bool.not_eq_true] at hemp
    have ha : handleDisconnection s c now =
        (⟨s.socks, mapDel s.connections u, mapSet s.rooms r (mapDel ru u)⟩,
         broadcastToRoom
           (⟨s.socks, s.connections, mapSet s.rooms r (mapDel ru u)⟩ :
             ServerState) r (.userLeft r u eu.username now) (some u)) := by
      simp only [handleDisconnection, hs, hu, hr, hget, hgu, hemp,
        Bool.false_eq_true, if_false]
    have hgN : mapGet (mapSet s.rooms r (mapDel ru u)) r =
        some (mapDel ru u) := mapGet_set_self _ _ _
    have hgu2 : mapGet (mapDel ru u) u = none := mapGet_del_self _ _ hnru
    have hdelc : mapDel (mapDel s.connections u) u = mapDel s.connections u :=
      mapDel_of_get_none _ _ (mapGet_del_self _ _ hnc)
    have hb : handleDisconnection
        (⟨s.socks, mapDel s.connections u,
          mapSet s.rooms r (mapDel ru u)⟩ : ServerState) c now' =
        (⟨s.socks, mapDel s.connections u,
          mapSet s.rooms r (mapDel ru u)⟩, []) := by
      simp only [handleDisconnection, hs, hu, hr, hgN, hgu2, hdelc]
    refine ⟨?_, ?_, ?_⟩
    · simp only [ha, hb]
    · simp only [ha, hb]
    · intro v e hmem hvne hov
      simp only [ha, hb, List.append_nil]
      exact houtB v e hmem hvne hov

/-- Witness for C4: `a` (conn 10) of the concrete three-member room is
disconnected twice; open member `c` (conn 12) sees exactly one
`UserLeft`. -/
theorem c4_witness :
    (handleDisconnection (handleDisconnection c7State 10 8).1 10 9).1 =
      (handleDisconnection c7State 10 8).1 ∧
    (handleDisconnection (handleDisconnection c7State 10 8).1 10 9).2 =
      [] ∧
    sendsTo ((handleDisconnection c7State 10 8).2 ++
      (handleDisconnection (handleDisconnection c7State 10 8).1 10 9).2)
      12 = [.userLeft "r" "a" "a" 8] := by
  have h := c4_disconnect_idempotent c7State 10 ⟨some "a", some "r", true⟩
    "a" "r" 8 9
    [("a", ⟨"a", "a", 10, 0⟩), ("b", ⟨"b", "b", 11, 0⟩),
     ("c", ⟨"c", "c", 12, 0⟩)] ⟨"a", "a", 10, 0⟩
    (by decide) (by decide) (by decide) (by decide) (by decide)
    (by unfold NodupKeys keysOf; decide)
    (by unfold NodupKeys keysOf; decide)
    (by unfold NodupKeys keysOf; decide) (by decide)
  exact ⟨h.1, h.2.1, h.2.2 "c" ⟨"c", "c", 12, 0⟩ (by decide) (by decide)
    (by decide)⟩

/-! ## The C1 simulation: step lemmas for the invariant -/

theorem specMembers_mem_iff (ss : List SpecEntry) (r u : String) :
    u ∈ specMembers ss r ↔ ∃ c, SpecEntry.mk c u r ∈ ss := by
  unfold specMembers
  simp only [List.mem_map, List.mem_filter, decide_eq_true_eq]
  constructor
  · rintro ⟨e, ⟨he, hre⟩, hue⟩
    obtain ⟨ec, eu, er⟩ := e
    subst hre
    subst hue
    exact ⟨ec, he⟩
  · rintro ⟨c, hc⟩
    exact ⟨⟨c, u, r⟩, ⟨hc, rfl⟩, rfl⟩

theorem codeMembers_mem_iff (s : ServerState) (r u : String) :
    u ∈ codeMembers s r ↔
      (mapGet ((mapGet s.rooms r).getD []) u).isSome = true :=
  (mapGet_isSome_iff _ _).symm

theorem codeMembers_some {s : ServerState} {r u : String}
    (h : u ∈ codeMembers s r) :
    ∃ ru e, mapGet s.rooms r = some ru ∧ mapGet ru u = some e := by
  rw [codeMembers_mem_iff] at h
  rcases hg : mapGet s.rooms r with _ | ru
  · rw [hg] at h
    simp [mapGet] at h
  · rw [hg] at h
    simp only [Option.getD_some] at h
    obtain ⟨e, he⟩ := Option.isSome_iff_exists.mp h
    exact ⟨ru, e, rfl, he⟩

theorem inv_init : Inv initState [] [] := by
  refine ⟨?_, ?_, ?_, ?_, ?_, wfRooms_initState⟩
  · intro r u
    simp [codeMembers, initState, mapGet, keysOf]
  · intro e he
    simp at he
  · intro e he
    simp at he
  · intro e he
    simp at he
  · intro c k u r hk
    simp [initState, mapGet] at hk

theorem inv_connect {s : ServerState} {ss : List SpecEntry} {dead : List Nat}
    {c : Nat} (h : Inv s ss dead) (hnew : (mapGet s.socks c).isNone = true) :
    Inv (stepOp s (.connect c)) (specStep ss (.connect c)) dead := by
  obtain ⟨i1, i2u, i2c, i3, i4, iwf⟩ := h
  refine ⟨i1, i2u, i2c, ?_, ?_, iwf⟩
  · intro e he
    obtain ⟨k, hk, hku, hkr, hdead⟩ := i3 e he
    have hne : e.connId ≠ c := by
      intro hh
      rw [← hh, hk] at hnew
      simp at hnew
    refine ⟨k, ?_, hku, hkr, hdead⟩
    simpa only [stepOp] using (mapGet_set_ne s.socks _ hne).trans hk
  · intro c' k' u' r' hk' hku' hkr' hdead'
    by_cases hcc : c' = c
    · subst hcc
      simp only [stepOp] at hk'
      rw [mapGet_set_self] at hk'
      injection hk' with hk'
      rw [← hk'] at hku'
      cases hku'
    · simp only [stepOp] at hk'
      rw [mapGet_set_ne _ _ hcc] at hk'
      exact i4 c' k' u' r' hk' hku' hkr' hdead'

theorem inv_joinFail {s : ServerState} {ss : List SpecEntry}
    {dead : List Nat} {c : Nat} {r : String} (h : Inv s ss dead) :
    Inv (stepOp s (.joinFail c r)) (specStep ss (.joinFail c r)) dead := by
  rcases hs : mapGet s.socks c with _ | k <;>
    simp only [stepOp, handleJoinRoom, hs, specStep] <;> exact h

theorem inv_join {s : ServerState} {ss : List SpecEntry} {dead : List Nat}
    {c : Nat} {u un r : String} (h : Inv s ss dead) (hdead : c ∉ dead)
    (hub : unboundSock s c = true) (hnrm : userInNoRoom s u = true) :
    Inv (stepOp s (.join c u un r)) (specStep ss (.join c u un r)) dead := by
  obtain ⟨i1, i2u, i2c, i3, i4, iwf⟩ := h
  obtain ⟨k, hs, hku, hkr⟩ :
      ∃ k, mapGet s.socks c = some k ∧ k.userId = none ∧ k.roomId = none := by
    unfold unboundSock at hub
    rcases hg : mapGet s.socks c with _ | k
    · rw [hg] at hub
      cases hub
    · rw [hg] at hub
      simp only [Bool.and_eq_true, Option.isNone_iff_eq_none] at hub
      exact ⟨k, rfl, hub.1, hub.2⟩
  have hufresh : ∀ e ∈ ss, e.userId ≠ u := by
    intro e he hequ
    have hmem : e.userId ∈ codeMembers s e.roomId :=
      (i1 e.roomId e.userId).mpr ⟨e.connId, he⟩
    obtain ⟨ru0, e0, hg0, hge0⟩ := codeMembers_some hmem
    rw [userInNoRoom, List.all_eq_true] at hnrm
    have hnone := hnrm (e.roomId, ru0) (mapGet_mem _ hg0)
    rw [hequ] at hge0
    simp only at hnone
    rw [hge0] at hnone
    cases hnone
  have hcfresh : ∀ e ∈ ss, e.connId ≠ c := by
    intro e he hec
    obtain ⟨k0, hk0, hk0u, _, _⟩ := i3 e he
    rw [hec, hs] at hk0
    injection hk0 with hk0
    rw [← hk0] at hk0u
    rw [hku] at hk0u
    cases hk0u
  have hrooms : (stepOp s (.join c u un r)).rooms =
      mapSet s.rooms r
        (mapSet ((mapGet s.rooms r).getD []) u ⟨u, un, c, 0⟩) := by
    simp only [stepOp, handleJoinRoom, hs]
  have hsocks : (stepOp s (.join c u un r)).socks =
      mapSet s.socks c { k with userId := some u, roomId := some r } := by
    simp only [stepOp, handleJoinRoom, hs]
  simp only [specStep]
  refine ⟨?_, ?_, ?_, ?_, ?_, ?_⟩
  · intro r' u'
    rw [codeMembers_mem_iff, hrooms]
    by_cases hrr : r' = r
    · subst hrr
      rw [mapGet_set_self, Option.getD_some]
      by_cases huu : u' = u
      · subst huu
        rw [mapGet_set_self]
        simp only [Option.isSome_some, true_iff]
        exact ⟨c, List.mem_append_right _ (List.mem_singleton.mpr rfl)⟩
      · rw [mapGet_set_ne _ _ huu]
        have hiff := (codeMembers_mem_iff s r' u').symm.trans (i1 r' u')
        rw [hiff]
        constructor
        · rintro ⟨c', hc'⟩
          exact ⟨c', List.mem_append_left _ hc'⟩
        · rintro ⟨c', hc'⟩
          rcases List.mem_append.mp hc' with h' | h'
          · exact ⟨c', h'⟩
          · rw [List.mem_singleton] at h'
            simp only [SpecEntry.mk.injEq] at h'
            exact absurd h'.2.1 huu
    · rw [mapGet_set_ne _ _ hrr]
      have hiff := (codeMembers_mem_iff s r' u').symm.trans (i1 r' u')
      rw [hiff]
      constructor
      · rintro ⟨c', hc'⟩
        exact ⟨c', List.mem_append_left _ hc'⟩
      · rintro ⟨c', hc'⟩
        rcases List.mem_append.mp hc' with h' | h'
        · exact ⟨c', h'⟩
        · rw [List.mem_singleton] at h'
          simp only [SpecEntry.mk.injEq] at h'
          exact absurd h'.2.2 hrr
  · intro e he e' he' heq
    rcases List.mem_append.mp he with h1 | h1 <;>
      rcases List.mem_append.mp he' with h2 | h2
    · exact i2u e h1 e' h2 heq
    · rw [List.mem_singleton] at h2
      subst h2
      exact absurd heq (hufresh e h1)
    · rw [List.mem_singleton] at h1
      subst h1
      exact absurd heq.symm (hufresh e' h2)
    · rw [List.mem_singleton] at h1 h2
      rw [h1, h2]
  · intro e he e' he' heq
    rcases List.mem_append.mp he with h1 | h1 <;>
      rcases List.mem_append.mp he' with h2 | h2
    · exact i2c e h1 e' h2 heq
    · rw [List.mem_singleton] at h2
      subst h2
      exact absurd heq (hcfresh e h1)
    · rw [List.mem_singleton] at h1
      subst h1
      exact absurd heq.symm (hcfresh e' h2)
    · rw [List.mem_singleton] at h1 h2
      rw [h1, h2]
  · intro e he
    rcases List.mem_append.mp he with h1 | h1
    · obtain ⟨k0, hk0, hk0u, hk0r, hd0⟩ := i3 e h1
      refine ⟨k0, ?_, hk0u, hk0r, hd0⟩
      rw [hsocks, mapGet_set_ne _ _ (hcfresh e h1)]
      exact hk0
    · rw [List.mem_singleton] at h1
      subst h1
      refine ⟨{ k with userId := some u, roomId := some r }, ?_, rfl, rfl,
        hdead⟩
      rw [hsocks]
      exact mapGet_set_self _ _ _
  · intro c' k' u' r' hk' hku' hkr' hd'
    rw [hsocks] at hk'
    by_cases hcc : c' = c
    · subst hcc
      rw [mapGet_set_self] at hk'
      injection hk' with hk'
      rw [← hk'] at hku' hkr'
      simp only [Option.some.injEq] at hku' hkr'
      subst hku'
      subst hkr'
      exact List.mem_append_right _ (List.mem_singleton.mpr rfl)
    · rw [mapGet_set_ne _ _ hcc] at hk'
      exact List.mem_append_left _ (i4 c' k' u' r' hk' hku' hkr' hd')
  · show WfRoomsTable (stepOp s (.join c u un r)).rooms
    rw [hrooms]
    exact wfTable_set_member s.rooms r u ⟨u, un, c, 0⟩ iwf

/-- Membership correspondence after the room-removal shape shared by the
leave and disconnect handlers: member `u` (the one presence of connection
`c`) is deleted from room `r`, the room key is dropped if that emptied
it, and on the specification side every presence of `c` is erased. -/
theorem memIff_after_remove {s : ServerState} {ss : List SpecEntry}
    {c : Nat} {u r : String} {ru : List (String × Entry)} {eu : Entry}
    (i1 : ∀ r' u', u' ∈ codeMembers s r' ↔ ∃ c', SpecEntry.mk c' u' r' ∈ ss)
    (i2u : ∀ e ∈ ss, ∀ e' ∈ ss, e.userId = e'.userId → e = e')
    (i2c : ∀ e ∈ ss, ∀ e' ∈ ss, e.connId = e'.connId → e = e')
    (hentry : SpecEntry.mk c u r ∈ ss)
    (hmr : mapGet s.rooms r = some ru) (hgu : mapGet ru u = some eu)
    (hnru : NodupKeys ru) (hnr : NodupKeys s.rooms)
    (rt' : List (String × List (String × Entry)))
    (hrt' : rt' = if (mapDel ru u).isEmpty = true
      then mapDel (mapSet s.rooms r (mapDel ru u)) r
      else mapSet s.rooms r (mapDel ru u)) :
    ∀ r' u', (mapGet ((mapGet rt' r').getD []) u').isSome = true ↔
      ∃ c', SpecEntry.mk c' u' r' ∈ ss.filter fun e => e.connId ≠ c := by
  have hconn_only : ∀ e ∈ ss, e.connId = c → e = ⟨c, u, r⟩ :=
    fun e he hec => i2c e he _ hentry hec
  have huser_only : ∀ e ∈ ss, e.userId = u → e = ⟨c, u, r⟩ :=
    fun e he heu => i2u e he _ hentry heu
  have hnoU : ∀ u', u' = u →
      ¬∃ c', SpecEntry.mk c' u' r ∈ ss.filter fun e => e.connId ≠ c := by
    rintro u' rfl ⟨c', hc'⟩
    obtain ⟨hss, hne⟩ := List.mem_filter.mp hc'
    have := huser_only _ hss rfl
    simp only [SpecEntry.mk.injEq] at this
    rw [decide_eq_true_eq] at hne
    exact hne this.1
  intro r' u'
  by_cases hrr : r' = r
  · subst hrr
    by_cases hemp : (mapDel ru u).isEmpty = true
    · rw [hrt', if_pos hemp, mapGet_del_self _ _ (nodupKeys_set _ _ _ hnr)]
      simp only [Option.getD_none, mapGet, Option.isSome_none,
        Bool.false_eq_true, false_iff]
      have hdelnil : mapDel ru u = [] := by
        cases hd : mapDel ru u with
        | nil => rfl
        | cons a t => rw [hd] at hemp; cases hemp
      by_cases huu : u' = u
      · exact hnoU u' huu
      · rintro ⟨c', hc'⟩
        obtain ⟨hss, _⟩ := List.mem_filter.mp hc'
        have hmem : u' ∈ codeMembers s r' := (i1 r' u').mpr ⟨c', hss⟩
        obtain ⟨ru0, e0, hg0, hge0⟩ := codeMembers_some hmem
        rw [hmr] at hg0
        injection hg0 with hg0
        subst hg0
        have : (u', e0) ∈ mapDel ru u :=
          mem_mapDel_of_ne _ _ (mapGet_mem _ hge0) huu
        rw [hdelnil] at this
        simp at this
    · rw [hrt', if_neg hemp, mapGet_set_self, Option.getD_some]
      by_cases huu : u' = u
      · subst huu
        rw [mapGet_del_self _ _ hnru]
        simp only [Option.isSome_none, Bool.false_eq_true, false_iff]
        exact hnoU u' rfl
      · rw [mapGet_del_ne _ huu]
        have hL : (mapGet ru u').isSome = true ↔
            ∃ c', SpecEntry.mk c' u' r' ∈ ss := by
          have := (codeMembers_mem_iff s r' u').symm.trans (i1 r' u')
          rw [hmr, Option.getD_some] at this
          exact this
        rw [hL]
        constructor
        · rintro ⟨c', hc'⟩
          refine ⟨c', List.mem_filter.mpr ⟨hc', ?_⟩⟩
          rw [decide_eq_true_eq]
          intro hec
          have := hconn_only _ hc' hec
          simp only [SpecEntry.mk.injEq] at this
          exact huu this.2.1
        · rintro ⟨c', hc'⟩
          exact ⟨c', (List.mem_filter.mp hc').1⟩
  · have hget' : mapGet rt' r' = mapGet s.rooms r' := by
      rw [hrt']
      by_cases hemp : (mapDel ru u).isEmpty = true
      · rw [if_pos hemp, mapGet_del_ne _ hrr, mapGet_set_ne _ _ hrr]
      · rw [if_neg hemp, mapGet_set_ne _ _ hrr]
    rw [hget']
    have hL : (mapGet ((mapGet s.rooms r').getD []) u').isSome = true ↔
        ∃ c', SpecEntry.mk c' u' r' ∈ ss :=
      (codeMembers_mem_iff s r' u').symm.trans (i1 r' u')
    rw [hL]
    constructor
    · rintro ⟨c', hc'⟩
      refine ⟨c', List.mem_filter.mpr ⟨hc', ?_⟩⟩
      rw [decide_eq_true_eq]
      intro hec
      have := hconn_only _ hc' hec
      simp only [SpecEntry.mk.injEq] at this
      exact hrr this.2.2
    · rintro ⟨c', hc'⟩
      exact ⟨c', (List.mem_filter.mp hc').1⟩

theorem filter_noop_of_no_conn {ss : List SpecEntry} {c : Nat}
    (h : ∀ e ∈ ss, e.connId ≠ c) :
    (ss.filter fun e => e.connId ≠ c) = ss :=
  List.filter_eq_self.mpr fun e he => decide_eq_true (h e he)

theorem inv_leave {s : ServerState} {ss : List SpecEntry} {dead : List Nat}
    {c : Nat} {rf : String} (h : Inv s ss dead) (hdead : c ∉ dead) :
    Inv (stepOp s (.leave c rf)) (specStep ss (.leave c rf)) dead := by
  obtain ⟨i1, i2u, i2c, i3, i4, iwf⟩ := h
  simp only [specStep]
  rcases hs : mapGet s.socks c with _ | k
  · have hstate : stepOp s (.leave c rf) = s := by
      simp only [stepOp, handleLeaveRoom, hs]
    have hfix : (ss.filter fun e => e.connId ≠ c) = ss := by
      refine filter_noop_of_no_conn fun e he hec => ?_
      obtain ⟨k0, hk0, _, _, _⟩ := i3 e he
      rw [hec, hs] at hk0
      cases hk0
    rw [hstate, hfix]
    exact ⟨i1, i2u, i2c, i3, i4, iwf⟩
  · rcases hku : k.userId with _ | u
    · rcases hkr : k.roomId with _ | r
      all_goals
        have hstate : stepOp s (.leave c rf) = s := by
          simp only [stepOp, handleLeaveRoom, hs, hku, hkr]
        have hfix : (ss.filter fun e => e.connId ≠ c) = ss := by
          refine filter_noop_of_no_conn fun e he hec => ?_
          obtain ⟨k0, hk0, hk0u, _, _⟩ := i3 e he
          rw [hec, hs] at hk0
          injection hk0 with hk0
          rw [← hk0, hku] at hk0u
          cases hk0u
        rw [hstate, hfix]
        exact ⟨i1, i2u, i2c, i3, i4, iwf⟩
    · rcases hkr : k.roomId with _ | r
      · have hstate : stepOp s (.leave c rf) = s := by
          simp only [stepOp, handleLeaveRoom, hs, hku, hkr]
        have hfix : (ss.filter fun e => e.connId ≠ c) = ss := by
          refine filter_noop_of_no_conn fun e he hec => ?_
          obtain ⟨k0, hk0, _, hk0r, _⟩ := i3 e he
          rw [hec, hs] at hk0
          injection hk0 with hk0
          rw [← hk0, hkr] at hk0r
          cases hk0r
        rw [hstate, hfix]
        exact ⟨i1, i2u, i2c, i3, i4, iwf⟩
      · -- bound connection: the member is removed
        have hentry : SpecEntry.mk c u r ∈ ss := i4 c k u r hs hku hkr hdead
        have hmemcode : u ∈ codeMembers s r := (i1 r u).mpr ⟨c, hentry⟩
        obtain ⟨ru, eu, hmr, hgu⟩ := codeMembers_some hmemcode
        have hnru := (iwf.2 r ru hmr).1
        have hconn_only : ∀ e ∈ ss, e.connId = c → e = ⟨c, u, r⟩ :=
          fun e he hec => i2c e he _ hentry hec
        have hrooms : (stepOp s (.leave c rf)).rooms =
            if (mapDel ru u).isEmpty = true
            then mapDel (mapSet s.rooms r (mapDel ru u)) r
            else mapSet s.rooms r (mapDel ru u) := by
          by_cases hemp : (mapDel ru u).isEmpty = true
          · simp only [stepOp, handleLeaveRoom, hs, hku, hkr, hmr, hgu,
              hemp, if_true]
          · simp only [Bool.not_eq_true] at hemp
            simp only [stepOp, handleLeaveRoom, hs, hku, hkr, hmr, hgu,
              hemp, Bool.false_eq_true, if_false]
        have hsocks : (stepOp s (.leave c rf)).socks =
            mapSet s.socks c { k with userId := none, roomId := none } := by
          by_cases hemp : (mapDel ru u).isEmpty = true
          · simp only [stepOp, handleLeaveRoom, hs, hku, hkr, hmr, hgu,
              hemp, if_true]
          · simp only [Bool.not_eq_true] at hemp
            simp only [stepOp, handleLeaveRoom, hs, hku, hkr, hmr, hgu,
              hemp, Bool.false_eq_true, if_false]
        refine ⟨?_, ?_, ?_, ?_, ?_, ?_⟩
        · intro r' u'
          rw [codeMembers_mem_iff, hrooms]
          exact memIff_after_remove i1 i2u i2c hentry hmr hgu hnru iwf.1 _
            rfl r' u'
        · intro e he e' he' heq
          exact i2u e (List.mem_filter.mp he).1 e' (List.mem_filter.mp he').1
            heq
        · intro e he e' he' heq
          exact i2c e (List.mem_filter.mp he).1 e' (List.mem_filter.mp he').1
            heq
        · intro e he
          obtain ⟨hess, hec⟩ := List.mem_filter.mp he
          rw [decide_eq_true_eq] at hec
          obtain ⟨k0, hk0, hk0u, hk0r, hd0⟩ := i3 e hess
          refine ⟨k0, ?_, hk0u, hk0r, hd0⟩
          rw [hsocks, mapGet_set_ne _ _ hec]
          exact hk0
        · intro c' k' u' r' hk' hku' hkr' hd'
          rw [hsocks] at hk'
          by_cases hcc : c' = c
          · subst hcc
            rw [mapGet_set_self] at hk'
            injection hk' with hk'
            rw [← hk'] at hku'
            cases hku'
          · rw [mapGet_set_ne _ _ hcc] at hk'
            refine List.mem_filter.mpr ⟨i4 c' k' u' r' hk' hku' hkr' hd', ?_⟩
            rw [decide_eq_true_eq]
            exact hcc
        · show WfRoomsTable (stepOp s (.leave c rf)).rooms
          rw [hrooms]
          by_cases hemp : (mapDel ru u).isEmpty = true
          · rw [if_pos hemp]
            exact wfTable_del_room s.rooms r u ru iwf
          · rw [if_neg hemp]
            simp only [Bool.not_eq_true] at hemp
            exact wfTable_del_member s.rooms r u ru hmr hemp iwf

theorem inv_disconnect {s : ServerState} {ss : List SpecEntry}
    {dead : List Nat} {c : Nat} (h : Inv s ss dead) (hdead : c ∉ dead) :
    Inv (stepOp s (.disconnect c)) (specStep ss (.disconnect c))
      (c :: dead) := by
  obtain ⟨i1, i2u, i2c, i3, i4, iwf⟩ := h
  simp only [specStep]
  have hweak : ∀ (hfix : (ss.filter fun e => e.connId ≠ c) = ss)
      (hnc : ∀ e ∈ ss, e.connId ≠ c)
      (hstate : stepOp s (.disconnect c) = s),
      Inv (stepOp s (.disconnect c)) (ss.filter fun e => e.connId ≠ c)
        (c :: dead) := by
    intro hfix hnc hstate
    rw [hstate, hfix]
    refine ⟨i1, i2u, i2c, ?_, ?_, iwf⟩
    · intro e he
      obtain ⟨k0, hk0, hk0u, hk0r, hd0⟩ := i3 e he
      refine ⟨k0, hk0, hk0u, hk0r, ?_⟩
      intro hmem
      rcases List.mem_cons.mp hmem with h' | h'
      · exact hnc e he h'
      · exact hd0 h'
    · intro c' k' u' r' hk' hku' hkr' hd'
      exact i4 c' k' u' r' hk' hku' hkr'
        fun hmm => hd' (List.mem_cons_of_mem _ hmm)
  rcases hs : mapGet s.socks c with _ | k
  · have hnc : ∀ e ∈ ss, e.connId ≠ c := by
      intro e he hec
      obtain ⟨k0, hk0, _, _, _⟩ := i3 e he
      rw [hec, hs] at hk0
      cases hk0
    exact hweak (filter_noop_of_no_conn hnc) hnc
      (by simp only [stepOp, handleDisconnection, hs])
  · rcases hku : k.userId with _ | u
    · have hnc : ∀ e ∈ ss, e.connId ≠ c := by
        intro e he hec
        obtain ⟨k0, hk0, hk0u, _, _⟩ := i3 e he
        rw [hec, hs] at hk0
        injection hk0 with hk0
        rw [← hk0, hku] at hk0u
        cases hk0u
      exact hweak (filter_noop_of_no_conn hnc) hnc
        (by simp only [stepOp, handleDisconnection, hs, hku])
    · rcases hkr : k.roomId with _ | r
      · -- bound identity but no room: only the registry entry is deleted
        have hnc : ∀ e ∈ ss, e.connId ≠ c := by
          intro e he hec
          obtain ⟨k0, hk0, _, hk0r, _⟩ := i3 e he
          rw [hec, hs] at hk0
          injection hk0 with hk0
          rw [← hk0, hkr] at hk0r
          cases hk0r
        have hfix := filter_noop_of_no_conn hnc
        have hrooms : (stepOp s (.disconnect c)).rooms = s.rooms := by
          simp only [stepOp, handleDisconnection, hs, hku, hkr]
        have hsocks : (stepOp s (.disconnect c)).socks = s.socks := by
          simp only [stepOp, handleDisconnection, hs, hku, hkr]
        rw [hfix]
        refine ⟨?_, i2u, i2c, ?_, ?_, ?_⟩
        · intro r' u'
          rw [codeMembers_mem_iff, hrooms]
          exact (codeMembers_mem_iff s r' u').symm.trans (i1 r' u')
        · intro e he
          obtain ⟨k0, hk0, hk0u, hk0r, hd0⟩ := i3 e he
          refine ⟨k0, ?_, hk0u, hk0r, ?_⟩
          · rw [hsocks]
            exact hk0
          · intro hmem
            rcases List.mem_cons.mp hmem with h' | h'
            · exact hnc e he h'
            · exact hd0 h'
        · intro c' k' u' r' hk' hku' hkr' hd'
          rw [hsocks] at hk'
          exact i4 c' k' u' r' hk' hku' hkr'
            fun hmm => hd' (List.mem_cons_of_mem _ hmm)
        · show WfRoomsTable (stepOp s (.disconnect c)).rooms
          rw [hrooms]
          exact iwf
      · -- bound connection: the member is removed, socket stays bound
        have hentry : SpecEntry.mk c u r ∈ ss := i4 c k u r hs hku hkr hdead
        have hmemcode : u ∈ codeMembers s r := (i1 r u).mpr ⟨c, hentry⟩
        obtain ⟨ru, eu, hmr, hgu⟩ := codeMembers_some hmemcode
        have hnru := (iwf.2 r ru hmr).1
        have hrooms : (stepOp s (.disconnect c)).rooms =
            if (mapDel ru u).isEmpty = true
            then mapDel (mapSet s.rooms r (mapDel ru u)) r
            else mapSet s.rooms r (mapDel ru u) := by
          by_cases hemp : (mapDel ru u).isEmpty = true
          · simp only [stepOp, handleDisconnection, hs, hku, hkr, hmr, hgu,
              hemp, if_true]
          · simp only [Bool.not_eq_true] at hemp
            simp only [stepOp, handleDisconnection, hs, hku, hkr, hmr, hgu,
              hemp, Bool.false_eq_true, if_false]
        have hsocks : (stepOp s (.disconnect c)).socks = s.socks := by
          by_cases hemp : (mapDel ru u).isEmpty = true
          · simp only [stepOp, handleDisconnection, hs, hku, hkr, hmr, hgu,
              hemp, if_true]
          · simp only [Bool.not_eq_true] at hemp
            simp only [stepOp, handleDisconnection, hs, hku, hkr, hmr, hgu,
              hemp, Bool.false_eq_true, if_false]
        refine ⟨?_, ?_, ?_, ?_, ?_, ?_⟩
        · intro r' u'
          rw [codeMembers_mem_iff, hrooms]
          exact memIff_after_remove i1 i2u i2c hentry hmr hgu hnru iwf.1 _
            rfl r' u'
        · intro e he e' he' heq
          exact i2u e (List.mem_filter.mp he).1 e' (List.mem_filter.mp he').1
            heq
        · intro e he e' he' heq
          exact i2c e (List.mem_filter.mp he).1 e' (List.mem_filter.mp he').1
            heq
        · intro e he
          obtain ⟨hess, hec⟩ := List.mem_filter.mp he
          rw [decide_eq_true_eq] at hec
          obtain ⟨k0, hk0, hk0u, hk0r, hd0⟩ := i3 e hess
          refine ⟨k0, ?_, hk0u, hk0r, ?_⟩
          · rw [hsocks]
            exact hk0
          · intro hmem
            rcases List.mem_cons.mp hmem with h' | h'
            · exact hec h'
            · exact hd0 h'
        · intro c' k' u' r' hk' hku' hkr' hd'
          rw [hsocks] at hk'
          have hcc : c' ≠ c := fun hh => hd' (hh ▸ List.mem_cons_self _ _)
          refine List.mem_filter.mpr
            ⟨i4 c' k' u' r' hk' hku' hkr'
              fun hmm => hd' (List.mem_cons_of_mem _ hmm), ?_⟩
          rw [decide_eq_true_eq]
          exact hcc
        · show WfRoomsTable (stepOp s (.disconnect c)).rooms
          rw [hrooms]
          by_cases hemp : (mapDel ru u).isEmpty = true
          · rw [if_pos hemp]
            exact wfTable_del_room s.rooms r u ru iwf
          · rw [if_neg hemp]
            simp only [Bool.not_eq_true] at hemp
            exact wfTable_del_member s.rooms r u ru hmr hemp iwf

/-- The invariant carries over any admissible trace. -/
theorem inv_run (ops : List Op) :
    ∀ (s : ServerState) (ss : List SpecEntry) (dead : List Nat),
      Inv s ss dead → admissible s dead ops = true →
      ∃ dead', Inv (runOps s ops) (specRun ss ops) dead' := by
  induction ops with
  | nil =>
    intro s ss dead h _
    exact ⟨dead, h⟩
  | cons op rest ih =>
    intro s ss dead h hadm
    cases op with
    | connect c =>
      simp only [admissible, Bool.and_eq_true, decide_eq_true_eq] at hadm
      obtain ⟨⟨h1, h2⟩, h3⟩ := hadm
      exact ih _ _ _ (inv_connect h h1) h3
    | join c u un r =>
      simp only [admissible, Bool.and_eq_true, decide_eq_true_eq] at hadm
      obtain ⟨⟨⟨h1, h2⟩, h3⟩, h4⟩ := hadm
      exact ih _ _ _ (inv_join h h1 h2 h3) h4
    | joinFail c r =>
      simp only [admissible, Bool.and_eq_true, decide_eq_true_eq] at hadm
      obtain ⟨h1, h2⟩ := hadm
      exact ih _ _ _ (inv_joinFail h) h2
    | leave c rf =>
      simp only [admissible, Bool.and_eq_true, decide_eq_true_eq] at hadm
      obtain ⟨h1, h2⟩ := hadm
      exact ih _ _ _ (inv_leave h h1) h2
    | disconnect c =>
      simp only [admissible, Bool.and_eq_true, decide_eq_true_eq] at hadm
      obtain ⟨h1, h2⟩ := hadm
      exact ih _ _ _ (inv_disconnect h h1) h2

/-- C1, counterexample — the trace "conn 0 joins room A, then joins room
B without leaving, then disconnects" leaves `u` recorded as a member of
`A` although `u`'s connection has disconnected, so the member set does
not equal the claim's set of users that joined and have not since left or
been disconnected (the specification model, which removes the
disconnected connection's presences, reports `u` gone from `A`). -/
theorem c1_counterexample :
    "u" ∈ codeMembers (runOps initState
      [.connect 0, .join 0 "u" "n" "A", .join 0 "u" "n" "B",
       .disconnect 0]) "A" ∧
    "u" ∉ specMembers (specRun []
      [.connect 0, .join 0 "u" "n" "A", .join 0 "u" "n" "B",
       .disconnect 0]) "A" := by
  decide

/-- C1, amended — for every trace in which each successful join is made
by an existing connection with no current identity/room binding and for a
userId that is not presently a member of any room, and no operation
arrives on a connection after its disconnect, a room's recorded member
set equals exactly the claim's set of userIds that have joined the room
and have not since left or been disconnected/evicted. -/
theorem c1_members_equal_spec_for_disciplined_traces (ops : List Op)
    (hadm : admissible initState [] ops = true) (r u : String) :
    u ∈ codeMembers (runOps initState ops) r ↔
      u ∈ specMembers (specRun [] ops) r := by
  obtain ⟨dead', hinv⟩ := inv_run ops initState [] [] inv_init hadm
  rw [specMembers_mem_iff]
  exact hinv.1 r u

/-- Witness for the amended C1 on a concrete admissible trace. -/
theorem c1_witness :
    admissible initState [] [.connect 0, .join 0 "u" "n" "rA"] = true ∧
    ("u" ∈ codeMembers
        (runOps initState [.connect 0, .join 0 "u" "n" "rA"]) "rA" ↔
      "u" ∈ specMembers (specRun [] [.connect 0, .join 0 "u" "n" "rA"])
        "rA") :=
  ⟨by decide,
   c1_members_equal_spec_for_disciplined_traces
     [.connect 0, .join 0 "u" "n" "rA"] (by decide) "rA" "u"⟩

/-- C3, counterexample — a connection that already joined room `A` and
then performs a successful JoinRoom for room `B` ends up with membership
entries in both rooms at once, violating the claimed system-wide
at-most-one invariant. -/
theorem c3_counterexample :
    "u" ∈ codeMembers (runOps initState
      [.connect 0, .join 0 "u" "n" "A", .join 0 "u" "n" "B"]) "A" ∧
    "u" ∈ codeMembers (runOps initState
      [.connect 0, .join 0 "u" "n" "A", .join 0 "u" "n" "B"]) "B" ∧
    ("A" : String) ≠ "B" := by
  decide

/-- C3, amended — the at-most-one-room invariant does hold for every
trace in which no connection performs a successful JoinRoom while already
bound to a room (and joins only use userIds not currently in any room,
with no operations on disconnected connections): a userId then appears in
the member map of at most one room. -/
theorem c3_at_most_one_room_for_disciplined_traces (ops : List Op)
    (hadm : admissible initState [] ops = true) (u r1 r2 : String)
    (h1 : u ∈ codeMembers (runOps initState ops) r1)
    (h2 : u ∈ codeMembers (runOps initState ops) r2) : r1 = r2 := by
  obtain ⟨dead', hinv⟩ := inv_run ops initState [] [] inv_init hadm
  obtain ⟨c1, he1⟩ := (hinv.1 r1 u).mp h1
  obtain ⟨c2, he2⟩ := (hinv.1 r2 u).mp h2
  have heq := hinv.2.1 _ he1 _ he2 rfl
  exact congrArg SpecEntry.roomId heq

/-- Witness for the amended C3 on a concrete admissible trace. -/
theorem c3_witness :
    admissible initState [] [.connect 0, .join 0 "u" "n" "rA"] = true ∧
    "u" ∈ codeMembers
      (runOps initState [.connect 0, .join 0 "u" "n" "rA"]) "rA" ∧
    ("rA" : String) = "rA" :=
  ⟨by decide, by decide,
   c3_at_most_one_room_for_disciplined_traces
     [.connect 0, .join 0 "u" "n" "rA"] (by decide) "u" "rA" "rA"
     (by decide) (by decide)⟩

end SyncWave
